import Mathlib

/-!
Shallow embedding of the `anonymizedf` repository (EDF/EDF+ header repair and
anonymization) together with proofs of the specification claims C1 to C10.

The functions of `src/anonymizedf/fixer.py` and `src/anonymizedf/model.py`
are embedded as executable Lean definitions.  Calls into external libraries
(`dateparser.parse`, `unidecode`, `chardet`, `pyedflib`) are either taken as
parameters of the embedded functions or modelled from the spec; each such
modelling decision is documented on the corresponding definition.
-/

/-! ## Decimal rendering (the embedding of Python decimal formatting) -/

/-- Decimal digit characters. -/
def digitChars : List Char := ['0', '1', '2', '3', '4', '5', '6', '7', '8', '9']

/-- The decimal digit character of `n` (meaningful for `n < 10`). -/
def digitChar (n : Nat) : Char := digitChars.getD n '9'

/-- Fuel-indexed helper for `toDecimal` (structural recursion on the fuel so
that the definition evaluates by kernel reduction; `toDecimal` supplies
enough fuel, as `toDecimal_eq` shows). -/
def toDecimalAux : Nat → Nat → List Char
  | 0, n => [digitChar n]
  | fuel + 1, n =>
    if n < 10 then [digitChar n]
    else toDecimalAux fuel (n / 10) ++ [digitChar (n % 10)]

/-- Decimal rendering of a natural number: the embedding of Python decimal
formatting of a nonnegative integer (as in `str(n)` or an f-string). -/
def toDecimal (n : Nat) : List Char := toDecimalAux n n

/-- Embedding of a Python zero-padded format such as `f"{n:02}"`: left-pad the
decimal rendering with zeros to width `w`. -/
def zeroPad (w n : Nat) : String :=
  (List.replicate (w - (toDecimal n).length) '0' ++ toDecimal n).asString

/-- Numeric value of a digit character. -/
def digitVal (c : Char) : Nat := c.toNat - 48

/-- Numeric value of a list of decimal digit characters. -/
def digitsVal (l : List Char) : Nat := l.foldl (fun a c => 10 * a + digitVal c) 0

/-! ## Dates and the modelled external date parser -/

/-- A calendar date as produced by the date parser (`datetime` day, month and
year components are the only ones the fixer uses). -/
structure PyDate where
  day : Nat
  month : Nat
  year : Nat
deriving DecidableEq, Repr

/-- The month abbreviation table `MONTHS` of `fixer.py`. -/
def MONTHS : List String :=
  ["JAN", "FEB", "MAR", "APR", "MAY", "JUN",
   "JUL", "AUG", "SEP", "OCT", "NOV", "DEC"]

/-- Embedding of `format_edf_long_date`:
`f"{date.day:02}-{MONTHS[date.month - 1]}-{date.year:04}"`. -/
def format_edf_long_date (d : PyDate) : String :=
  zeroPad 2 d.day ++ "-" ++ MONTHS.getD (d.month - 1) "" ++ "-" ++ zeroPad 4 d.year

/-- Split a character list on every occurrence of `c`, keeping empty pieces
(the behaviour of splitting on a single separator character). -/
def splitOnChar (c : Char) : List Char → List (List Char)
  | [] => [[]]
  | x :: xs =>
    if x = c then [] :: splitOnChar c xs
    else
      match splitOnChar c xs with
      | p :: ps => (x :: p) :: ps
      | [] => [[x]]

/-- Index of a month given by its characters, compared case-insensitively
against the three-letter abbreviations of `MONTHS`. -/
def monthIndex (m : List Char) : Option Nat :=
  MONTHS.findIdx? (fun mo => mo = (m.map Char.toUpper).asString)

/-- Modelled from the spec: `dateparser.parse`, the external natural-language
date parser, is not part of this repository.  The spec relies on it only
through (a) strings in strict `DD-MMM-YYYY` form parsing to the corresponding
date and (b) clearly non-date tokens (such as `"X"` or `"Q"`) yielding no
parse.  We model exactly the strict `DD-MMM-YYYY` branch (two digits, a dash,
a month abbreviation matched case-insensitively, a dash, four digits, with a
plausible day number) and return `none` on everything else.  Universally
quantified claims take the parser as a parameter instead of using this
model.  `parseDMY` handles the three dash-separated components. -/
def parseDMY (d m y : List Char) : Option PyDate :=
  if d.length = 2 ∧ d.all Char.isDigit ∧ y.length = 4 ∧ y.all Char.isDigit then
    match monthIndex m with
    | some i =>
      if 1 ≤ digitsVal d ∧ digitsVal d ≤ 31 then
        some ⟨digitsVal d, i + 1, digitsVal y⟩
      else none
    | none => none
  else none

/-- Modelled from the spec: see `parseDMY`. -/
def dateparserParse (s : String) : Option PyDate :=
  match splitOnChar '-' s.data with
  | [d, m, y] => parseDMY d m y
  | _ => none

/-! ## Python string helpers used by `fixer.py` -/

/-- Embedding of Python `" ".join`-style joining with a separator. -/
def pyJoin (sep : String) : List String → String
  | [] => ""
  | [t] => t
  | t :: ts => t ++ sep ++ pyJoin sep ts

/-- Embedding of Python `str.lower` (adequate for the ASCII data the fixer
manipulates). -/
def pyLower (s : String) : String := (s.data.map Char.toLower).asString

/-- Embedding of Python `str.upper` (adequate for ASCII data). -/
def pyUpper (s : String) : String := (s.data.map Char.toUpper).asString

/-- Python whitespace characters, as stripped by `str.strip`. -/
def isPySpace (c : Char) : Bool :=
  c = ' ' ∨ c = '\t' ∨ c = '\n' ∨ c = '\r' ∨ c = '\x0b' ∨ c = '\x0c'

/-- Embedding of Python `str.strip`. -/
def pyStrip (s : String) : String :=
  ((s.data.dropWhile isPySpace).reverse.dropWhile isPySpace).reverse.asString

/-- Helper for `re_split_spaces`: drop the empty interior pieces produced by
adjacent separators, keeping the final piece even when empty. -/
def collapseMid : List (List Char) → List (List Char)
  | [] => []
  | [p] => [p]
  | p :: q :: rest => if p = [] then collapseMid (q :: rest) else p :: collapseMid (q :: rest)

/-- Helper for `re_split_spaces`: keep the first piece even when empty, then
collapse interior empty pieces. -/
def collapseParts : List (List Char) → List (List Char)
  | [] => []
  | [p] => [p]
  | p :: rest => p :: collapseMid rest

/-- Embedding of `re.split(r" +", s)`: splitting on maximal runs of spaces
equals splitting on every single space and dropping the interior empty
pieces (which arise exactly inside runs of adjacent spaces), while the
leading and trailing empty pieces Python's `re.split` produces for boundary
separators are kept. -/
def re_split_spaces (s : String) : List String :=
  (collapseParts (splitOnChar ' ' s.data)).map List.asString

/-- Embedding of `s[a:b]` on a Python string. -/
def strSlice (s : String) (a b : Nat) : String := ((s.data.drop a).take (b - a)).asString

/-- Embedding of `s[:n]` on a Python string. -/
def strTake (s : String) (n : Nat) : String := (s.data.take n).asString

/-- Embedding of `s[n:]` on a Python string. -/
def strDropStr (s : String) (n : Nat) : String := (s.data.drop n).asString

/-- Embedding of Python `str.ljust` with a space fill character. -/
def ljust (s : String) (w : Nat) : String :=
  s ++ (List.replicate (w - s.length) ' ').asString

/-- Modelled from the spec: `unidecode` (external library) transliterates
non-ASCII characters to their closest ASCII equivalents and is the identity
on ASCII strings.  All data manipulated by the verified properties is ASCII,
so we model the ASCII-identity behaviour. -/
def unidecode (s : String) : String := s

/-! ## Field guesses (`guess_patient_fields`, `guess_recording_fields`) -/

/-- A guess value: either a string (sex guesses) or a parsed date (birthdate
and startdate guesses), mirroring the dynamically typed `value` entry. -/
inductive GVal where
  | str (s : String)
  | date (d : PyDate)
deriving DecidableEq, Repr

/-- Embedding of a field-type guess record
`{"type": ..., "value": ..., "confidence": ..., "field": n}`. -/
structure FieldGuess where
  type : String
  value : GVal
  confidence : ℚ
  field : Nat
deriving DecidableEq, Repr

/-- Embedding of `re.match(r"^\d{2}-[^\d\W]+-\d{4}$", field)` on ASCII data:
two digits, a dash, one or more word characters that are not digits, a dash,
four digits. -/
def matchStrictDateShape (s : String) : Bool :=
  match splitOnChar '-' s.data with
  | [d, m, y] =>
    decide (d.length = 2) && d.all Char.isDigit &&
      decide (m ≠ []) && m.all (fun c => c.isAlpha || c = '_') &&
      decide (y.length = 4) && y.all Char.isDigit
  | _ => false

/-- Helper for `guess_patient_fields`: the loop body over the enumerated
token list, with `n` the current index. -/
def guess_patient_aux (parse : String → Option PyDate) : Nat → List String → List FieldGuess
  | _, [] => []
  | n, f :: rest =>
    (if pyLower f = "m" ∨ pyLower f = "f" then
      [⟨"sex", .str (pyUpper f), 1/2, n⟩]
    else []) ++
    (match parse f with
     | some d => [⟨"birthdate", .date d, if matchStrictDateShape f then 4/5 else 1/2, n⟩]
     | none => []) ++
    guess_patient_aux parse (n + 1) rest

/-- Embedding of `guess_patient_fields` (the external `dateparser.parse` is a
parameter). -/
def guess_patient_fields (parse : String → Option PyDate) (fields : List String) :
    List FieldGuess :=
  guess_patient_aux parse 0 fields

/-- Helper for `guess_recording_fields`. -/
def guess_recording_aux (parse : String → Option PyDate) : Nat → List String → List FieldGuess
  | _, [] => []
  | n, f :: rest =>
    (match parse f with
     | some d => [⟨"startdate", .date d, if matchStrictDateShape f then 4/5 else 1/2, n⟩]
     | none => []) ++
    guess_recording_aux parse (n + 1) rest

/-- Embedding of `guess_recording_fields`. -/
def guess_recording_fields (parse : String → Option PyDate) (fields : List String) :
    List FieldGuess :=
  guess_recording_aux parse 0 fields

/-! ## Conflict resolution (`process_field_guesses`) -/

/-- Lookup in the `compliant_fields` dict, modelled as an insertion-ordered
association list with unique keys. -/
def alGet (al : List (String × FieldGuess)) (k : String) : Option FieldGuess :=
  (al.find? (fun p => p.1 = k)).map (fun p => p.2)

instance : DecidableRel (fun a b : FieldGuess => a.confidence ≤ b.confidence) :=
  fun a b => inferInstanceAs (Decidable (a.confidence ≤ b.confidence))

/-- Embedding of the `while field_type_guesses: g = field_type_guesses.pop()`
loop of `process_field_guesses`.  The input list is the sorted guess list in
popping order (descending confidence), `acc` is the `compliant_fields`
dict. -/
def pfgLoop : List FieldGuess → List (String × FieldGuess) → List (String × FieldGuess)
  | [], acc => acc
  | g :: rest, acc =>
    match alGet acc g.type with
    | none => pfgLoop rest (acc ++ [(g.type, g)])
    | some cf =>
      if cf.confidence = g.confidence ∧ cf.value ≠ g.value then
        pfgLoop rest (acc.filter (fun p => ¬ (p.1 = g.type)))
      else pfgLoop rest acc

/-- Embedding of `process_field_guesses`.  Python's `sorted` is a stable
ascending sort (here `List.insertionSort`, which is stable); popping from the
end of the sorted list processes the guesses in descending confidence order,
so the loop runs over the reversed sorted list.  Accepted guesses consume
their source token: the indices are deleted in descending order exactly as in
the `for n in sorted(..., reverse=True): del fields[n]` loop. -/
def process_field_guesses (fields : List String) (guesses : List FieldGuess) :
    List (String × GVal) × List String :=
  let sortedG := List.insertionSort (fun a b => a.confidence ≤ b.confidence) guesses
  let compliant := pfgLoop sortedG.reverse []
  let idxs := List.insertionSort (fun a b : Nat => a ≤ b)
    (compliant.map (fun p => p.2.field))
  let rem := idxs.reverse.foldl (fun fs n => fs.eraseIdx n) fields
  (compliant.map (fun p => (p.1, p.2.value)), rem)

/-! ## Strict and heuristic field fixers -/

/-- Result of a strict fixer: `ok` or a raised `FieldFormatError` message. -/
abbrev FieldResult := Except String String

/-- Embedding of `basic_fix_lpi_format` (field by field reformatting of local
patient information; raising `FieldFormatError` is modelled as `.error`). -/
def basic_fix_lpi_format (parse : String → Option PyDate) (lpi : String) : FieldResult :=
  let fs0 := re_split_spaces lpi
  let fields := if fs0.length < 4 then fs0 ++ List.replicate (4 - fs0.length) "X" else fs0
  if ¬ (pyLower (fields.getD 1 "") = "m" ∨ pyLower (fields.getD 1 "") = "f" ∨
        pyLower (fields.getD 1 "") = "x") then
    .error "Invalid sex field"
  else if pyLower (fields.getD 2 "") ≠ "x" then
    match parse (fields.getD 2 "") with
    | none => .error "Invalid birthdate field"
    | some d => .ok (unidecode (pyJoin " " (fields.set 2 (format_edf_long_date d))))
  else .ok (unidecode (pyJoin " " fields))

/-- The value rendered into the birthdate/startdate slot by the heuristic
fixers: `format_edf_long_date` applied to the guessed date.  Date-typed
guesses always carry a `.date` value, so the `.str` branch is unreachable; it
returns the string itself. -/
def fmtDateGVal : GVal → String
  | .date d => format_edf_long_date d
  | .str s => s

/-- The string stored in a text slot from the best-guess mapping, with the
`"X"` placeholder when the slot has no accepted guess. -/
def slotStr (best : List (String × GVal)) (k : String) : String :=
  match (best.find? (fun p => p.1 = k)).map (fun p => p.2) with
  | some (GVal.str s) => s
  | some (GVal.date d) => fmtDateGVal (GVal.date d)
  | none => "X"

/-- The `compliant_fields` list assembled by `heuristic_fix_lpi_format`
before joining: canonical patient slots (code, sex, birthdate, name) followed
by the leftover tokens. -/
def heuristic_fix_lpi_fields (parse : String → Option PyDate) (lpi : String) :
    List String :=
  let fields := re_split_spaces lpi
  let r := process_field_guesses fields (guess_patient_fields parse fields)
  [slotStr r.1 "code",
   slotStr r.1 "sex",
   (match (r.1.find? (fun p => p.1 = "birthdate")).map (fun p => p.2) with
    | some v => fmtDateGVal v
    | none => "X"),
   slotStr r.1 "name"] ++ r.2

/-- Embedding of `heuristic_fix_lpi_format` (the `print` side effect of the
source is ignored). -/
def heuristic_fix_lpi_format (parse : String → Option PyDate) (lpi : String) : String :=
  unidecode (pyJoin " " (heuristic_fix_lpi_fields parse lpi))

/-- Embedding of `basic_fix_lri_format`. -/
def basic_fix_lri_format (parse : String → Option PyDate) (lri : String) : FieldResult :=
  let fs0 := re_split_spaces lri
  let fields := if fs0.length < 5 then fs0 ++ List.replicate (5 - fs0.length) "X" else fs0
  if pyLower (fields.getD 0 "") ≠ "startdate" then
    .error "Missing Startdate"
  else
    let fields := fields.set 0 "Startdate"
    if pyLower (fields.getD 1 "") ≠ "x" then
      match parse (fields.getD 1 "") with
      | none => .error "Invalid startdate field"
      | some d => .ok (unidecode (pyJoin " " (fields.set 1 (format_edf_long_date d))))
    else .ok (unidecode (pyJoin " " fields))

/-- The `compliant_fields` list assembled by `heuristic_fix_lri_format`
before joining: literal `Startdate`, startdate, code, technician, equipment,
followed by the leftover tokens. -/
def heuristic_fix_lri_fields (parse : String → Option PyDate) (lri : String) :
    List String :=
  let fields := re_split_spaces lri
  let r := process_field_guesses fields (guess_recording_fields parse fields)
  ["Startdate",
   (match (r.1.find? (fun p => p.1 = "startdate")).map (fun p => p.2) with
    | some v => fmtDateGVal v
    | none => "X"),
   slotStr r.1 "code",
   slotStr r.1 "technician",
   slotStr r.1 "equipment"] ++ r.2

/-- Embedding of `heuristic_fix_lri_format`. -/
def heuristic_fix_lri_format (parse : String → Option PyDate) (lri : String) : String :=
  unidecode (pyJoin " " (heuristic_fix_lri_fields parse lri))

/-- The `try basic / except FieldFormatError: heuristic` block of
`fix_edfplus_header` for the LPI field.  The heuristic path is a total
function (its Python source contains no `raise` and none of its callees raise
`FieldFormatError`), so the combined fixer never propagates
`FieldFormatError`. -/
def fix_lpi (parse : String → Option PyDate) (lpi : String) : String :=
  match basic_fix_lpi_format parse lpi with
  | .ok s => s
  | .error _ => heuristic_fix_lpi_format parse lpi

/-- The `try basic / except FieldFormatError: heuristic` block for the LRI
field. -/
def fix_lri (parse : String → Option PyDate) (lri : String) : String :=
  match basic_fix_lri_format parse lri with
  | .ok s => s
  | .error _ => heuristic_fix_lri_format parse lri

/-- Embedding of `fix_edfplus_header` on the decoded header text.  The
`chardet` charset sniff followed by `bytes.decode` and the final
`str.encode("ascii")` are modelled as the identity on the ASCII header
strings being repaired, so the function maps the decoded 256-character header
to the corrected one. -/
def fix_edfplus_header (parse : String → Option PyDate) (dec_header : String) : String :=
  let lpi := pyStrip (strSlice dec_header 8 88)
  let lri := pyStrip (strSlice dec_header 88 168)
  let compliant_lpi := fix_lpi parse lpi
  let compliant_lri := fix_lri parse lri
  ljust "0" 8 ++
    ljust (strTake compliant_lpi 80) 80 ++
    ljust (strTake compliant_lri 80) 80 ++
    strSlice dec_header 168 192 ++
    ljust "EDF+C" 44 ++
    strDropStr dec_header 236

/-! ## The repair pipeline (`_get_copy_path_with_suffix`, `fix_edf_file`) -/

/-- The filesystem visible to the pipeline: an association list from path
names to file contents (ASCII file contents modelled as strings). -/
abbrev FS := List (String × String)

/-- Content of a file, `none` when the path does not exist. -/
def fsGet (fs : FS) (p : String) : Option String :=
  (fs.find? (fun q => q.1 = p)).map (fun q => q.2)

/-- Embedding of `Path.exists`. -/
def fsExists (fs : FS) (p : String) : Bool := (fsGet fs p).isSome

/-- Remove a path (the effect of `Path.unlink`). -/
def fsDel (fs : FS) (p : String) : FS := fs.filter (fun q => ¬ (q.1 = p))

/-- Create or overwrite a file (the effect of `shutil.copy` / writing). -/
def fsSet (fs : FS) (p : String) (v : String) : FS := (p, v) :: fsDel fs p

/-- The directory prefix of a path string, up to and including the last
slash: the part `Path.with_name` keeps. -/
def dirPart (p : String) : List Char :=
  (p.data.reverse.dropWhile (fun c => ¬ (c = '/'))).reverse

/-- Embedding of `Path.with_name`. -/
def withName (p : String) (name : String) : String :=
  (dirPart p ++ name.data).asString

/-- The file name of a path (the part after the last slash). -/
def baseName (p : String) : List Char :=
  (p.data.reverse.takeWhile (fun c => ¬ (c = '/'))).reverse

/-- Embedding of `PurePath.stem`: the file name without its last suffix; a
leading dot with no later dot is not a suffix. -/
def pathStem (p : String) : String :=
  let name := baseName p
  match name.reverse.dropWhile (fun c => ¬ (c = '.')) with
  | [] => name.asString
  | _ :: rest => if rest = [] then name.asString else rest.reverse.asString

/-- The candidate destination names tried by `_get_copy_path_with_suffix`:
index `0` is `stem_suffix.edf`, index `n ≥ 2` is `stem_suffix_n.edf`. -/
def candPath (path suffix : String) (n : Nat) : String :=
  if n = 0 then withName path (pathStem path ++ "_" ++ suffix ++ ".edf")
  else withName path (pathStem path ++ "_" ++ suffix ++ "_" ++ (toDecimal n).asString ++ ".edf")

/-- The `while dst_path.exists()` loop of `_get_copy_path_with_suffix`, with
explicit fuel.  `n` is the Python counter (starting at 2) and `dst` the
current candidate; the fuel chosen in `get_copy_path_with_suffix` is large
enough that a free candidate is always found before it runs out. -/
def copyLoop (fs : FS) (path suffix : String) : Nat → Nat → String → String
  | 0, _, dst => dst
  | fuel + 1, n, dst =>
    if fsExists fs dst then copyLoop fs path suffix fuel (n + 1) (candPath path suffix n)
    else dst

/-- Embedding of `_get_copy_path_with_suffix`. -/
def get_copy_path_with_suffix (fs : FS) (path suffix : String) : String :=
  copyLoop fs path suffix (fs.length + 1) 2 (candPath path suffix 0)

/-- The patched file content produced by `fix_edf_file`: the source content
with the fixed header written over its start (`open("r+b")` then `write`). -/
def patchedContent (parse : String → Option PyDate) (content : String) : String :=
  let fixed_header := fix_edfplus_header parse (strTake content 256)
  fixed_header ++ strDropStr content fixed_header.length

/-- The output path used by `fix_edf_file`. -/
def fixOutPath (fs : FS) (file_path : String) (output_path : Option String) : String :=
  match output_path with
  | some p => p
  | none => get_copy_path_with_suffix fs file_path "fixed"

/-- Outcome of a `fix_edf_file` run: the final filesystem and either the
output path or the raised error (`RuntimeError` on failed verification). -/
structure FixOutcome where
  fs : FS
  result : Except String String
deriving Repr

/-- Embedding of `fix_edf_file`.  `reader_ok` abstracts the external
structural reader (`EdfReader` plus `getHeader`): it tells whether opening a
file with the given content succeeds.  Reading a missing source errors
without touching the filesystem. -/
def fix_edf_file (parse : String → Option PyDate) (reader_ok : String → Bool)
    (fs : FS) (file_path : String) (output_path : Option String)
    (check_valid : Bool) : FixOutcome :=
  let out := fixOutPath fs file_path output_path
  match fsGet fs file_path with
  | none => ⟨fs, .error "FileNotFoundError"⟩
  | some content =>
    let patched := patchedContent parse content
    let fs2 := fsSet (fsSet fs out content) out patched
    if check_valid && ! reader_ok patched then
      ⟨fsDel fs2 out, .error "Could not fix the EDF file"⟩
    else ⟨fs2, .ok out⟩

/-! ## The record model (`model.py`) -/

/-- A header value as stored in the pyEDFlib header dict: free text or a
datetime.  The empty value is `.str ""`. -/
inductive HVal where
  | str (s : String)
  | dt (year month day hour minute second : Nat)
deriving DecidableEq, Repr

/-- One entry of the edit mapping passed to `update_header`: the supplied
value (possibly null) and the anonymize flag. -/
structure EditField where
  value : Option HVal
  anonymize : Bool

/-- The value stored for one edited field: the empty value when the field is
flagged anonymize, otherwise the supplied value (empty if null). -/
def applyEdit (e : EditField) : HVal :=
  if e.anonymize then .str "" else e.value.getD (.str "")

/-- The `for field_name, field in fields.items()` loop of
`EDFModel.update_header`: store each edited field into the header (modelled
as a total map from field names to values). -/
def update_header_pass (hdr : String → HVal) (edits : List (String × EditField)) :
    String → HVal :=
  edits.foldl (fun h p => fun k => if k = p.1 then applyEdit p.2 else h k) hdr

/-- The far-future sentinel `datetime.datetime(3000, 1, 1, 0, 0, 0, 0)`. -/
def sentinelStartdate : HVal := .dt 3000 1 1 0 0 0

/-- Embedding of `EDFModel.update_header`: run the edit pass, then replace an
empty recording-start value with the far-future sentinel. -/
def update_header (hdr : String → HVal) (edits : List (String × EditField)) :
    String → HVal :=
  let h := update_header_pass hdr edits
  if h "startdate" = .str "" then
    fun k => if k = "startdate" then sentinelStartdate else h k
  else h

/-- The in-memory state of `EDFModel`: header map, annotations, signal
headers and the digital signal buffers (`readSignal(..., digital=True)`), the
annotation and signal-header entries kept abstract. -/
structure EDFModel (A H : Type) where
  header : String → HVal
  annots : List A
  signal_headers : List H
  signals : List (List Int)

/-- Embedding of the mutating method `EDFModel.update_header`. -/
def EDFModel.updateHeader (m : EDFModel A H) (edits : List (String × EditField)) :
    EDFModel A H :=
  { m with header := update_header m.header edits }

/-- Embedding of `EDFModel.update_annotations` (wholesale replacement). -/
def EDFModel.updateAnnotations (m : EDFModel A H) (annots : List A) : EDFModel A H :=
  { m with annots := annots }

/-- An edit-session operation on the model. -/
inductive EditOp (A : Type) where
  | header (edits : List (String × EditField))
  | annotations (annots : List A)

/-- Apply one edit operation. -/
def applyOp (m : EDFModel A H) : EditOp A → EDFModel A H
  | .header edits => m.updateHeader edits
  | .annotations annots => m.updateAnnotations annots

/-- Apply a whole edit session. -/
def applyOps (m : EDFModel A H) (ops : List (EditOp A)) : EDFModel A H :=
  ops.foldl applyOp m

/-- The arguments `EDFModel.write` hands to the external serializer
`pyedflib.highlevel.write_edf(filename, signals, signal_headers, header,
digital=True)`: the same digital sample buffers, signal headers, and the
edited header with annotations attached. -/
structure WriteArgs (A H : Type) where
  signals : List (List Int)
  signal_headers : List H
  header : String → HVal
  annotations : List A

/-- Embedding of `EDFModel.write`: what the model passes to the external
writer. -/
def EDFModel.write (m : EDFModel A H) : WriteArgs A H :=
  ⟨m.signals, m.signal_headers, m.header, m.annots⟩

/-! ## Claims C1 and C2: conflict resolution in `process_field_guesses` -/

/-- C1: for every token list whose guess set consists of exactly two guesses
of the same type with equal confidence and differing values,
`process_field_guesses` places neither value in that type's canonical slot —
the typed mapping it returns is empty (in particular it has no entry for that
type) — and the leftover token list is the whole input token list unchanged,
so both source tokens remain in it in their original relative order. -/
theorem claim_C1_equal_confidence_conflict (fields : List String) (g1 g2 : FieldGuess)
    (ht : g1.type = g2.type) (hc : g1.confidence = g2.confidence)
    (hv : g1.value ≠ g2.value) :
    (process_field_guesses fields [g1, g2]).1 = [] ∧
    (process_field_guesses fields [g1, g2]).2 = fields := by
  have hv' : ¬ (g2.value = g1.value) := fun h => hv h.symm
  simp [process_field_guesses, List.insertionSort, List.orderedInsert, hc.le,
    pfgLoop, alGet, List.find?, ht, hc.symm, hv']

/-- Witness for C1 at a concrete input: two equal-confidence sex guesses with
different values are both discarded. -/
theorem claim_C1_witness :
    (process_field_guesses ["M", "F"]
      [⟨"sex", GVal.str "M", 1/2, 0⟩, ⟨"sex", GVal.str "F", 1/2, 1⟩]).1 = [] ∧
    (process_field_guesses ["M", "F"]
      [⟨"sex", GVal.str "M", 1/2, 0⟩, ⟨"sex", GVal.str "F", 1/2, 1⟩]).2 = ["M", "F"] :=
  claim_C1_equal_confidence_conflict ["M", "F"] _ _ rfl rfl (by decide)

/-- C2: for every token list whose guess set consists of exactly two guesses
of the same type with different confidences, `process_field_guesses` selects
the higher-confidence guess's value for that type's canonical slot, whatever
the order of the two guesses and whatever their source token positions, and
only the winning guess's source token is consumed from the token list. -/
theorem claim_C2_higher_confidence_wins (fields : List String) (g1 g2 : FieldGuess)
    (ht : g1.type = g2.type) (hc : g1.confidence ≠ g2.confidence) :
    (process_field_guesses fields [g1, g2]).1 =
      [(g1.type, (if g1.confidence < g2.confidence then g2 else g1).value)] ∧
    (process_field_guesses fields [g1, g2]).2 =
      fields.eraseIdx (if g1.confidence < g2.confidence then g2 else g1).field := by
  rcases lt_or_gt_of_ne hc with h | h
  · have hle : g1.confidence ≤ g2.confidence := le_of_lt h
    have hne : ¬ (g2.confidence = g1.confidence) := fun hh => hc hh.symm
    simp [process_field_guesses, List.insertionSort, List.orderedInsert, hle,
      pfgLoop, alGet, List.find?, ht, hne, if_pos h]
  · have hle : ¬ (g1.confidence ≤ g2.confidence) := not_le_of_lt h
    have hlt : ¬ (g1.confidence < g2.confidence) := not_lt_of_gt h
    have hne : ¬ (g1.confidence = g2.confidence) := hc
    simp [process_field_guesses, List.insertionSort, List.orderedInsert, hle,
      pfgLoop, alGet, List.find?, ht.symm, hne, hlt]

/-- Witness for C2 at a concrete input: a 0.8-confidence guess beats a
0.5-confidence guess of the same type. -/
theorem claim_C2_witness :
    (process_field_guesses ["a", "b"]
        [⟨"sex", GVal.str "M", 1, 0⟩, ⟨"sex", GVal.str "F", 2, 1⟩]).1 =
      [("sex",
        (if (1 : ℚ) < 2 then (⟨"sex", GVal.str "F", 2, 1⟩ : FieldGuess)
         else ⟨"sex", GVal.str "M", 1, 0⟩).value)] ∧
    (process_field_guesses ["a", "b"]
        [⟨"sex", GVal.str "M", 1, 0⟩, ⟨"sex", GVal.str "F", 2, 1⟩]).2 =
      ["a", "b"].eraseIdx
        (if (1 : ℚ) < 2 then (⟨"sex", GVal.str "F", 2, 1⟩ : FieldGuess)
         else ⟨"sex", GVal.str "M", 1, 0⟩).field :=
  claim_C2_higher_confidence_wins ["a", "b"] _ _ rfl (by decide)

/-! ## Claim C7: `EDFModel.update_header` -/

/-- Fields not named in the edit mapping keep their stored value. -/
theorem update_header_pass_not_mem (hdr : String → HVal)
    (edits : List (String × EditField)) (n : String)
    (h : n ∉ edits.map Prod.fst) :
    update_header_pass hdr edits n = hdr n := by
  induction edits generalizing hdr with
  | nil => rfl
  | cons p rest ih =>
    simp only [List.map_cons, List.mem_cons] at h
    push_neg at h
    have hstep : update_header_pass hdr (p :: rest) =
        update_header_pass (fun k => if k = p.1 then applyEdit p.2 else hdr k) rest := rfl
    rw [hstep, ih _ h.2]
    simp [h.1]

/-- Each field named in the edit mapping (with the unique keys of a Python
dict) is stored as `applyEdit` of its edit entry. -/
theorem update_header_pass_mem (hdr : String → HVal)
    (edits : List (String × EditField)) (n : String) (e : EditField)
    (hnd : (edits.map Prod.fst).Nodup) (h : (n, e) ∈ edits) :
    update_header_pass hdr edits n = applyEdit e := by
  induction edits generalizing hdr with
  | nil => cases h
  | cons p rest ih =>
    simp only [List.map_cons, List.nodup_cons] at hnd
    have hstep : update_header_pass hdr (p :: rest) =
        update_header_pass (fun k => if k = p.1 then applyEdit p.2 else hdr k) rest := rfl
    rcases List.mem_cons.mp h with heq | hmem
    · have hk : n = p.1 := by rw [← heq]
    
      have hnmem : n ∉ rest.map Prod.fst := by rw [hk]; exact hnd.1
      rw [hstep, update_header_pass_not_mem _ _ _ hnmem]
      rw [if_pos hk, ← heq]
    · exact hstep ▸ ih (fun k => if k = p.1 then applyEdit p.2 else hdr k) hnd.2 hmem

/-- C7: for every edit mapping (unique keys, as in a Python dict), the edit
pass stores each anonymize-flagged field as the empty value and each
unflagged field as its supplied value (empty if null) — this is `applyEdit` —
and after the pass the stored recording-start field is never empty: every
field other than `startdate` keeps the value the pass gave it, and
`startdate` is replaced by the fixed sentinel datetime
`datetime(3000, 1, 1, 0, 0, 0, 0)` exactly when the pass left it empty. -/
theorem claim_C7_update_header_anonymize (hdr : String → HVal)
    (edits : List (String × EditField))
    (hnd : (edits.map Prod.fst).Nodup) :
    (∀ n e, (n, e) ∈ edits → update_header_pass hdr edits n = applyEdit e) ∧
    (∀ n, n ≠ "startdate" → update_header hdr edits n = update_header_pass hdr edits n) ∧
    (update_header hdr edits "startdate" =
      (if update_header_pass hdr edits "startdate" = HVal.str "" then sentinelStartdate
       else update_header_pass hdr edits "startdate")) ∧
    update_header hdr edits "startdate" ≠ HVal.str "" := by
  refine ⟨fun n e h => update_header_pass_mem hdr edits n e hnd h, ?_, ?_, ?_⟩
  · intro n hn
    unfold update_header
    split
    · simp [hn]
    · rfl
  · unfold update_header
    split
    · simp_all
    · simp_all
  · unfold update_header
    split
    · simp [sentinelStartdate]
    · simp_all

/-- Witness for C7 at a concrete input: anonymizing `startdate` and editing
`patientname` with a supplied value. -/
theorem claim_C7_witness :
    (∀ n e,
        (n, e) ∈ [("startdate", EditField.mk none true),
                   ("patientname", EditField.mk (some (HVal.str "bob")) false)] →
        update_header_pass (fun _ => HVal.str "v")
          [("startdate", EditField.mk none true),
           ("patientname", EditField.mk (some (HVal.str "bob")) false)] n = applyEdit e) ∧
    (∀ n, n ≠ "startdate" →
        update_header (fun _ => HVal.str "v")
          [("startdate", EditField.mk none true),
           ("patientname", EditField.mk (some (HVal.str "bob")) false)] n =
        update_header_pass (fun _ => HVal.str "v")
          [("startdate", EditField.mk none true),
           ("patientname", EditField.mk (some (HVal.str "bob")) false)] n) ∧
    (update_header (fun _ => HVal.str "v")
        [("startdate", EditField.mk none true),
         ("patientname", EditField.mk (some (HVal.str "bob")) false)] "startdate" =
      (if update_header_pass (fun _ => HVal.str "v")
            [("startdate", EditField.mk none true),
             ("patientname", EditField.mk (some (HVal.str "bob")) false)] "startdate" =
          HVal.str "" then sentinelStartdate
       else update_header_pass (fun _ => HVal.str "v")
            [("startdate", EditField.mk none true),
             ("patientname", EditField.mk (some (HVal.str "bob")) false)] "startdate")) ∧
    update_header (fun _ => HVal.str "v")
        [("startdate", EditField.mk none true),
         ("patientname", EditField.mk (some (HVal.str "bob")) false)] "startdate" ≠
      HVal.str "" :=
  claim_C7_update_header_anonymize (fun _ => HVal.str "v") _ (by decide)

/-! ## Claim C9: signals are passed through unchanged -/

/-- C9: whatever header and annotation edits an edit session applies to a
loaded model, the arguments the model hands to the external serializer
contain exactly the digital signal buffers and signal headers it loaded; the
repository never touches them, so (with the serializer writing the digital
buffers it is given) only header and annotation regions of the output can
differ from the source. -/
theorem claim_C9_signals_preserved {A H : Type} (m : EDFModel A H)
    (ops : List (EditOp A)) :
    ((applyOps m ops).write).signals = m.signals ∧
    ((applyOps m ops).write).signal_headers = m.signal_headers := by
  induction ops generalizing m with
  | nil => exact ⟨rfl, rfl⟩
  | cons op rest ih =>
    have hstep : applyOps m (op :: rest) = applyOps (applyOp m op) rest := rfl
    rw [hstep]
    rcases ih (applyOp m op) with ⟨h1, h2⟩
    refine ⟨h1.trans ?_, h2.trans ?_⟩ <;> cases op <;> rfl

/-! ## Claim C10: slots no guess can ever fill hold the placeholder -/

/-- Every key of the dict built by the guess-processing loop is the type of
one of the processed guesses (or was already a key of the accumulator). -/
theorem pfgLoop_key_mem (gs : List FieldGuess) (acc : List (String × FieldGuess))
    (p : String × FieldGuess) (hp : p ∈ pfgLoop gs acc) :
    p.1 ∈ acc.map Prod.fst ∨ ∃ g ∈ gs, g.type = p.1 := by
  induction gs generalizing acc with
  | nil =>
    exact Or.inl (List.mem_map_of_mem Prod.fst hp)
  | cons g rest ih =>
    rcases halget : alGet acc g.type with _ | cf
    · simp only [pfgLoop, halget] at hp
      rcases ih _ hp with hk | ⟨g', hg', ht⟩
      · rw [List.map_append, List.mem_append] at hk
        rcases hk with hk | hk
        · exact Or.inl hk
        · simp only [List.map_cons, List.map_nil, List.mem_singleton] at hk
          exact Or.inr ⟨g, List.mem_cons_self g rest, hk.symm⟩
      · exact Or.inr ⟨g', List.mem_cons_of_mem g hg', ht⟩
    · simp only [pfgLoop, halget] at hp
      by_cases hcond : cf.confidence = g.confidence ∧ cf.value ≠ g.value
      · rw [if_pos hcond] at hp
        rcases ih _ hp with hk | ⟨g', hg', ht⟩
        · rcases List.mem_map.mp hk with ⟨q, hq, hq1⟩
          exact Or.inl (hq1 ▸ List.mem_map_of_mem Prod.fst (List.mem_of_mem_filter hq))
        · exact Or.inr ⟨g', List.mem_cons_of_mem g hg', ht⟩
      · rw [if_neg hcond] at hp
        rcases ih _ hp with hk | ⟨g', hg', ht⟩
        · exact Or.inl hk
        · exact Or.inr ⟨g', List.mem_cons_of_mem g hg', ht⟩

/-- Every key of the typed mapping returned by `process_field_guesses` is the
type of one of the supplied guesses. -/
theorem process_field_guesses_key_mem (fields : List String)
    (guesses : List FieldGuess) (k : String) (v : GVal)
    (h : (k, v) ∈ (process_field_guesses fields guesses).1) :
    ∃ g ∈ guesses, g.type = k := by
  simp only [process_field_guesses] at h
  rcases List.mem_map.mp h with ⟨p, hp, hpe⟩
  have hk : p.1 = k := congrArg Prod.fst hpe
  rcases pfgLoop_key_mem _ _ _ hp with hmem | ⟨g, hg, ht⟩
  · simp at hmem
  · refine ⟨g, ?_, hk ▸ ht⟩
    have := List.mem_reverse.mp hg
    exact (List.perm_insertionSort (fun a b : FieldGuess => a.confidence ≤ b.confidence)
      guesses).mem_iff.mp this

/-- Every guess emitted by `guess_patient_aux` is a sex or birthdate guess. -/
theorem guess_patient_aux_types (parse : String → Option PyDate)
    (fields : List String) (n : Nat) (g : FieldGuess)
    (h : g ∈ guess_patient_aux parse n fields) :
    g.type = "sex" ∨ g.type = "birthdate" := by
  induction fields generalizing n with
  | nil => cases h
  | cons f rest ih =>
    simp only [guess_patient_aux, List.mem_append] at h
    rcases h with (h | h) | h
    · split at h <;> simp_all
    · rcases hp : parse f with _ | d <;> rw [hp] at h <;> simp_all
    · exact ih _ h

/-- Every guess emitted by `guess_recording_aux` is a startdate guess. -/
theorem guess_recording_aux_types (parse : String → Option PyDate)
    (fields : List String) (n : Nat) (g : FieldGuess)
    (h : g ∈ guess_recording_aux parse n fields) :
    g.type = "startdate" := by
  induction fields generalizing n with
  | nil => cases h
  | cons f rest ih =>
    simp only [guess_recording_aux, List.mem_append] at h
    rcases h with h | h
    · rcases hp : parse f with _ | d <;> rw [hp] at h <;> simp_all
    · exact ih _ h

/-- The typed mapping of a guess list none of whose types is `k` has no entry
at `k`. -/
theorem process_find_none (fields : List String) (guesses : List FieldGuess)
    (k : String) (hk : ∀ g ∈ guesses, g.type ≠ k) :
    (process_field_guesses fields guesses).1.find? (fun p => p.1 = k) = none := by
  rw [List.find?_eq_none]
  intro p hp
  rcases p with ⟨k', v⟩
  intro hbk
  have hk' : k' = k := by simpa using hbk
  rcases process_field_guesses_key_mem fields guesses k' v hp with ⟨g, hg, ht⟩
  exact hk g hg (ht.trans hk')

/-- C10: the heuristic reconstruction always places the `"X"` placeholder in
the patient code and name slots of the rebuilt LPI, and in the code,
technician and equipment slots of the rebuilt LRI, because
`guess_patient_fields` emits only sex and birthdate guesses and
`guess_recording_fields` emits only startdate guesses — no token can ever be
classified into those slots, for any behaviour of the external date
parser. -/
theorem claim_C10_placeholder_slots (parse : String → Option PyDate)
    (fields : List String) (lpi lri : String) :
    (∀ g ∈ guess_patient_fields parse fields, g.type = "sex" ∨ g.type = "birthdate") ∧
    (∀ g ∈ guess_recording_fields parse fields, g.type = "startdate") ∧
    (heuristic_fix_lpi_fields parse lpi).get? 0 = some "X" ∧
    (heuristic_fix_lpi_fields parse lpi).get? 3 = some "X" ∧
    (heuristic_fix_lri_fields parse lri).get? 2 = some "X" ∧
    (heuristic_fix_lri_fields parse lri).get? 3 = some "X" ∧
    (heuristic_fix_lri_fields parse lri).get? 4 = some "X" := by
  have hpat : ∀ fs k, k ≠ "sex" → k ≠ "birthdate" →
      (process_field_guesses fs (guess_patient_fields parse fs)).1.find?
        (fun p => p.1 = k) = none := by
    intro fs k h1 h2
    refine process_find_none fs _ k (fun g hg => ?_)
    rcases guess_patient_aux_types parse fs 0 g hg with h | h <;> rw [h]
    · exact fun hh => h1 hh.symm
    · exact fun hh => h2 hh.symm
  have hrec : ∀ fs k, k ≠ "startdate" →
      (process_field_guesses fs (guess_recording_fields parse fs)).1.find?
        (fun p => p.1 = k) = none := by
    intro fs k h1
    refine process_find_none fs _ k (fun g hg => ?_)
    rw [guess_recording_aux_types parse fs 0 g hg]
    exact fun hh => h1 hh.symm
  refine ⟨fun g hg => guess_patient_aux_types parse fields 0 g hg,
    fun g hg => guess_recording_aux_types parse fields 0 g hg, ?_, ?_, ?_, ?_, ?_⟩
  · simp [heuristic_fix_lpi_fields, slotStr, hpat _ "code" (by decide) (by decide)]
  · simp [heuristic_fix_lpi_fields, slotStr, hpat _ "name" (by decide) (by decide)]
  · simp [heuristic_fix_lri_fields, slotStr, hrec _ "code" (by decide)]
  · simp [heuristic_fix_lri_fields, slotStr, hrec _ "technician" (by decide)]
  · simp [heuristic_fix_lri_fields, slotStr, hrec _ "equipment" (by decide)]

/-! ## Claim C5: failed verification deletes the patched output -/

/-- A deleted path no longer exists. -/
theorem fsGet_del_self (fs : FS) (p : String) : fsGet (fsDel fs p) p = none := by
  have hfind : (fsDel fs p).find? (fun q => q.1 = p) = none := by
    rw [List.find?_eq_none]
    intro x hx
    rw [fsDel] at hx
    have hpx := List.of_mem_filter hx
    simpa using hpx
  simp [fsGet, hfind]

/-- C5: with verification enabled, if the structural reader rejects the
patched output content, `fix_edf_file` reports the repair error and the
output path does not exist in the resulting filesystem — the pipeline never
leaves behind a patched file it cannot itself re-parse. -/
theorem claim_C5_verify_failure_deletes_output (parse : String → Option PyDate)
    (reader_ok : String → Bool) (fs : FS) (file_path : String)
    (output_path : Option String) (content : String)
    (hsrc : fsGet fs file_path = some content)
    (hbad : reader_ok (patchedContent parse content) = false) :
    (fix_edf_file parse reader_ok fs file_path output_path true).result =
      Except.error "Could not fix the EDF file" ∧
    fsGet (fix_edf_file parse reader_ok fs file_path output_path true).fs
      (fixOutPath fs file_path output_path) = none := by
  simp only [fix_edf_file, hsrc, hbad]
  simp [fsGet_del_self]

/-- Witness for C5 at a concrete input: a reader that rejects everything
forces the error and the output file is gone. -/
theorem claim_C5_witness :
    (fix_edf_file dateparserParse (fun _ => false) [("src.edf", "")] "src.edf"
      (some "out.edf") true).result = Except.error "Could not fix the EDF file" ∧
    fsGet (fix_edf_file dateparserParse (fun _ => false) [("src.edf", "")] "src.edf"
      (some "out.edf") true).fs
      (fixOutPath [("src.edf", "")] "src.edf" (some "out.edf")) = none :=
  claim_C5_verify_failure_deletes_output dateparserParse (fun _ => false)
    [("src.edf", "")] "src.edf" (some "out.edf") "" (by decide) rfl

/-! ## Claim C6: derived output paths never name an existing file -/

/-- The fuel of `toDecimalAux` is irrelevant once it bounds the number of
digits. -/
theorem toDecimalAux_congr (n : Nat) : ∀ fuel1 fuel2 : Nat,
    n < 10 ^ (fuel1 + 1) → n < 10 ^ (fuel2 + 1) →
    toDecimalAux fuel1 n = toDecimalAux fuel2 n := by
  induction n using Nat.strong_induction_on with
  | _ n ih =>
    intro fuel1 fuel2 h1 h2
    by_cases hn : n < 10
    · cases fuel1 <;> cases fuel2 <;> simp [toDecimalAux, hn]
    · have hf1 : fuel1 ≠ 0 := by
        rintro rfl
        simp at h1
        omega
      have hf2 : fuel2 ≠ 0 := by
        rintro rfl
        simp at h2
        omega
      rcases Nat.exists_eq_succ_of_ne_zero hf1 with ⟨f1, rfl⟩
      rcases Nat.exists_eq_succ_of_ne_zero hf2 with ⟨f2, rfl⟩
      simp only [toDecimalAux, if_neg hn]
      congr 1
      refine ih (n / 10) (Nat.div_lt_self (by omega) (by omega)) f1 f2 ?_ ?_
      · rw [Nat.div_lt_iff_lt_mul (by omega)]
        calc n < 10 ^ (f1 + 1 + 1) := h1
        _ = 10 ^ (f1 + 1) * 10 := by ring
      · rw [Nat.div_lt_iff_lt_mul (by omega)]
        calc n < 10 ^ (f2 + 1 + 1) := h2
        _ = 10 ^ (f2 + 1) * 10 := by ring

/-- The defining recurrence of `toDecimal`. -/
theorem toDecimal_eq (n : Nat) :
    toDecimal n = if n < 10 then [digitChar n]
      else toDecimal (n / 10) ++ [digitChar (n % 10)] := by
  by_cases hn : n < 10
  · rw [if_pos hn]
    cases n with
    | zero => rfl
    | succ m => simp [toDecimal, toDecimalAux, hn]
  · rw [if_neg hn]
    have hnz : n ≠ 0 := by omega
    rcases Nat.exists_eq_succ_of_ne_zero hnz with ⟨f, rfl⟩
    have hstep : toDecimal (f + 1) = toDecimalAux f ((f + 1) / 10) ++ [digitChar ((f + 1) % 10)] := by
      rw [show toDecimal (f + 1) = toDecimalAux (f + 1) (f + 1) from rfl]
      rw [show toDecimalAux (f + 1) (f + 1) =
        (if (f + 1) < 10 then [digitChar (f + 1)]
         else toDecimalAux f ((f + 1) / 10) ++ [digitChar ((f + 1) % 10)]) from rfl]
      rw [if_neg hn]
    rw [hstep]
    congr 1
    rw [show toDecimal ((f + 1) / 10) = toDecimalAux ((f + 1) / 10) ((f + 1) / 10) from rfl]
    refine toDecimalAux_congr _ _ _ ?_ ?_
    · have h1 : (f + 1) / 10 ≤ f + 1 := Nat.div_le_self _ _
      have h2 : f + 1 < 10 ^ (f + 1) := Nat.lt_pow_self (by omega) _
      omega
    · have h1 : (f + 1) / 10 < 10 ^ ((f + 1) / 10) := Nat.lt_pow_self (by omega) _
      have h2 : (10 : Nat) ^ ((f + 1) / 10) ≤ 10 ^ ((f + 1) / 10 + 1) :=
        Nat.pow_le_pow_right (by omega) (by omega)
      omega

/-- Digit characters decode to their value. -/
theorem digitVal_digitChar (n : Nat) (h : n < 10) : digitVal (digitChar n) = n := by
  interval_cases n <;> rfl

/-- Decimal rendering round-trips through decimal decoding. -/
theorem digitsVal_toDecimal (n : Nat) : digitsVal (toDecimal n) = n := by
  induction n using Nat.strong_induction_on with
  | _ n ih =>
    rw [toDecimal_eq]
    by_cases hn : n < 10
    · simp [hn, digitsVal, digitVal_digitChar n hn]
    · rw [if_neg hn]
      have hdiv := ih (n / 10) (Nat.div_lt_self (by omega) (by omega))
      have hmod : n % 10 < 10 := Nat.mod_lt _ (by omega)
      simp only [digitsVal, List.foldl_append, List.foldl_cons, List.foldl_nil]
      rw [show List.foldl (fun a c => 10 * a + digitVal c) 0 (toDecimal (n / 10)) =
        digitsVal (toDecimal (n / 10)) from rfl, hdiv, digitVal_digitChar _ hmod]
      omega

/-- Decimal rendering is injective. -/
theorem toDecimal_inj (a b : Nat) (h : toDecimal a = toDecimal b) : a = b := by
  have := congrArg digitsVal h
  rwa [digitsVal_toDecimal, digitsVal_toDecimal] at this

/-- `toDecimal` never produces the empty list. -/
theorem toDecimal_ne_nil (n : Nat) : toDecimal n ≠ [] := by
  rw [toDecimal_eq]
  split <;> simp

/-- `Path.with_name` is injective in the name. -/
theorem withName_inj (p a b : String) (h : withName p a = withName p b) : a = b := by
  unfold withName at h
  have hd := List.asString_inj.mp h
  exact String.ext (List.append_cancel_left hd)

/-- The candidate destination names are pairwise distinct. -/
theorem candPath_inj (path suffix : String) (m n : Nat)
    (h : candPath path suffix m = candPath path suffix n) : m = n := by
  unfold candPath at h
  by_cases hm : m = 0 <;> by_cases hn : n = 0
  · omega
  · rw [if_pos hm, if_neg hn] at h
    have hd := congrArg String.data (withName_inj _ _ _ h)
    simp only [String.data_append, List.append_assoc] at hd
    have h1 := List.append_cancel_left hd
    have h2 := List.append_cancel_left h1
    have h3 := List.append_cancel_left h2
    have hlen := congrArg List.length h3
    simp only [List.length_append] at hlen
    rw [show (".edf" : String).data.length = 4 from rfl,
      show ("_" : String).data.length = 1 from rfl] at hlen
    omega
  · rw [if_neg hm, if_pos hn] at h
    have hd := congrArg String.data (withName_inj _ _ _ h)
    simp only [String.data_append, List.append_assoc] at hd
    have h1 := List.append_cancel_left hd
    have h2 := List.append_cancel_left h1
    have h3 := List.append_cancel_left h2
    have hlen := congrArg List.length h3
    simp only [List.length_append] at hlen
    rw [show (".edf" : String).data.length = 4 from rfl,
      show ("_" : String).data.length = 1 from rfl] at hlen
    omega
  · rw [if_neg hm, if_neg hn] at h
    have hd := congrArg String.data (withName_inj _ _ _ h)
    simp only [String.data_append, List.append_assoc] at hd
    have h1 := List.append_cancel_left hd
    have h2 := List.append_cancel_left h1
    have h3 := List.append_cancel_left h2
    have h4 := List.append_cancel_left h3
    have h5 : (toDecimal m).asString.data ++ ".edf".data =
        (toDecimal n).asString.data ++ ".edf".data := by
      simpa using h4
    have h6 : toDecimal m = toDecimal n := List.append_cancel_right h5
    exact toDecimal_inj _ _ h6

/-- A path that exists is a key of the filesystem. -/
theorem fsExists_true_mem (fs : FS) (p : String) (h : fsExists fs p = true) :
    p ∈ fs.map Prod.fst := by
  rw [fsExists, fsGet, Option.isSome_map'] at h
  rcases List.find?_isSome.mp h with ⟨x, hx, hpx⟩
  have : x.1 = p := by simpa using hpx
  exact this ▸ List.mem_map_of_mem Prod.fst hx

/-- A freshly written path exists. -/
theorem fsExists_set_self (fs : FS) (p : String) (v : String) :
    fsExists (fsSet fs p v) p = true := by
  simp [fsExists, fsGet, fsSet, List.find?]

/-- Writing one path preserves the existence of every path. -/
theorem fsExists_set_mono (fs : FS) (p v q : String) (h : fsExists fs q = true) :
    fsExists (fsSet fs p v) q = true := by
  by_cases hpq : q = p
  · subst hpq
    exact fsExists_set_self fs q v
  · rw [fsExists, fsGet, Option.isSome_map'] at h ⊢
    rcases List.find?_isSome.mp h with ⟨x, hx, hpx⟩
    refine List.find?_isSome.mpr ⟨x, ?_, hpx⟩
    have hxq : x.1 = q := by simpa using hpx
    refine List.mem_cons_of_mem _ (List.mem_filter.mpr ⟨hx, ?_⟩)
    simp [hxq, hpq]

/-- If some candidate within the fuel budget is free (or the current
candidate is), the naming loop returns a free name. -/
theorem copyLoop_free (fs : FS) (path suffix : String) :
    ∀ fuel n dst,
      (fsExists fs dst = false ∨
        ∃ i, i < fuel ∧ fsExists fs (candPath path suffix (n + i)) = false) →
      fsExists fs (copyLoop fs path suffix fuel n dst) = false := by
  intro fuel
  induction fuel with
  | zero =>
    intro n dst h
    rcases h with h | ⟨i, hi, _⟩
    · simpa [copyLoop] using h
    · omega
  | succ f ih =>
    intro n dst h
    show fsExists fs (if fsExists fs dst then
      copyLoop fs path suffix f (n + 1) (candPath path suffix n) else dst) = false
    by_cases hdst : fsExists fs dst = true
    · rw [if_pos hdst]
      apply ih
      rcases h with h | ⟨i, hi, hfree⟩
      · rw [h] at hdst
        cases hdst
      · match i, hfree with
        | 0, hfree => exact Or.inl hfree
        | j + 1, hfree =>
          refine Or.inr ⟨j, by omega, ?_⟩
          rw [show n + 1 + j = n + (j + 1) from by omega]
          exact hfree
    · rw [if_neg hdst]
      simp only [Bool.not_eq_true] at hdst
      exact hdst

/-- Once past the first candidate, the naming loop only returns numbered
candidates. -/
theorem copyLoop_cand_form (fs : FS) (path suffix : String) :
    ∀ fuel n dst m, 2 ≤ m → dst = candPath path suffix m → 2 ≤ n →
      ∃ k, 2 ≤ k ∧ copyLoop fs path suffix fuel n dst = candPath path suffix k := by
  intro fuel
  induction fuel with
  | zero =>
    intro n dst m hm hdst _
    exact ⟨m, hm, by simpa [copyLoop] using hdst⟩
  | succ f ih =>
    intro n dst m hm hdst hn
    show ∃ k, 2 ≤ k ∧ (if fsExists fs dst then
      copyLoop fs path suffix f (n + 1) (candPath path suffix n) else dst) =
      candPath path suffix k
    by_cases hdstE : fsExists fs dst = true
    · rw [if_pos hdstE]
      exact ih (n + 1) (candPath path suffix n) n hn rfl (by omega)
    · rw [if_neg hdstE]
      exact ⟨m, hm, hdst⟩

/-- Pigeonhole: among the first `fs.length + 1` numbered candidates, one does
not exist in the (finite) filesystem. -/
theorem exists_free_cand (fs : FS) (path suffix : String) :
    ∃ i, i < fs.length + 1 ∧
      fsExists fs (candPath path suffix (2 + i)) = false := by
  by_contra hcon
  push_neg at hcon
  have hinj : Function.Injective (fun i => candPath path suffix (2 + i)) := by
    intro i j hij
    have := candPath_inj path suffix (2 + i) (2 + j) hij
    omega
  have hnd : ((List.range (fs.length + 1)).map
      (fun i => candPath path suffix (2 + i))).Nodup :=
    (List.nodup_range _).map hinj
  have hsub : ((List.range (fs.length + 1)).map
      (fun i => candPath path suffix (2 + i))) ⊆ fs.map Prod.fst := by
    intro x hx
    rcases List.mem_map.mp hx with ⟨i, hi, rfl⟩
    have hiK : i < fs.length + 1 := List.mem_range.mp hi
    have hne := hcon i hiK
    have htrue : fsExists fs (candPath path suffix (2 + i)) = true := by
      cases hb : fsExists fs (candPath path suffix (2 + i))
      · exact absurd hb hne
      · rfl
    exact fsExists_true_mem _ _ htrue
  have hlen := (List.subperm_of_subset hnd hsub).length_le
  simp only [List.length_map, List.length_range] at hlen
  omega

/-- The derived destination name never names an existing file. -/
theorem get_copy_free (fs : FS) (path suffix : String) :
    fsExists fs (get_copy_path_with_suffix fs path suffix) = false := by
  unfold get_copy_path_with_suffix
  apply copyLoop_free
  right
  rcases exists_free_cand fs path suffix with ⟨i, hi, hfree⟩
  exact ⟨i, hi, hfree⟩

/-- When the plain `_fixed` name is free, the loop picks it. -/
theorem get_copy_eq_c0 (fs : FS) (path suffix : String)
    (h : fsExists fs (candPath path suffix 0) = false) :
    get_copy_path_with_suffix fs path suffix = candPath path suffix 0 := by
  show (if fsExists fs (candPath path suffix 0) then
    copyLoop fs path suffix fs.length 3 (candPath path suffix 2)
    else candPath path suffix 0) = candPath path suffix 0
  rw [if_neg (by simp [h])]

/-- When the plain `_fixed` name is taken, the loop returns a numbered
candidate. -/
theorem get_copy_ge2_of_c0_exists (fs : FS) (path suffix : String)
    (h : fsExists fs (candPath path suffix 0) = true) :
    ∃ k, 2 ≤ k ∧
      get_copy_path_with_suffix fs path suffix = candPath path suffix k := by
  have hstep : get_copy_path_with_suffix fs path suffix =
      copyLoop fs path suffix fs.length 3 (candPath path suffix 2) := by
    show (if fsExists fs (candPath path suffix 0) then
      copyLoop fs path suffix fs.length 3 (candPath path suffix 2)
      else candPath path suffix 0) = _
    rw [if_pos h]
  rw [hstep]
  exact copyLoop_cand_form fs path suffix fs.length 3 (candPath path suffix 2) 2
    (by omega) rfl (by omega)

/-- Shape of a successful `fix_edf_file` run: the output path is the derived
or supplied one and the resulting filesystem holds the patched content at the
output path. -/
theorem fix_ok_cases (parse : String → Option PyDate) (r : String → Bool)
    (fs : FS) (fp : String) (op : Option String) (cv : Bool) (p : String)
    (h : (fix_edf_file parse r fs fp op cv).result = Except.ok p) :
    p = fixOutPath fs fp op ∧
    ∃ content, fsGet fs fp = some content ∧
      (fix_edf_file parse r fs fp op cv).fs =
        fsSet (fsSet fs p content) p (patchedContent parse content) := by
  rcases hg : fsGet fs fp with _ | content
  · simp [fix_edf_file, hg] at h
  · simp only [fix_edf_file, hg] at h ⊢
    by_cases hc : (cv && ! r (patchedContent parse content)) = true
    · rw [if_pos hc] at h
      simp at h
    · rw [if_neg hc] at h ⊢
      simp only [Except.ok.injEq] at h
      subst h
      exact ⟨rfl, content, rfl, rfl⟩

/-- C6: when `fix` is called without an output path, the derived output path
(`stem_fixed.edf`, disambiguated as `stem_fixed_n.edf`) never names an
existing file, and two successive successful calls of `fix` on the same
source without an output path produce two distinct output files, the second
carrying a numeric suffix `n ≥ 2`. -/
theorem claim_C6_no_overwrite (parse : String → Option PyDate)
    (reader1 reader2 : String → Bool) (fs : FS) (file_path : String)
    (cv1 cv2 : Bool) (p1 p2 : String)
    (h1 : (fix_edf_file parse reader1 fs file_path none cv1).result = Except.ok p1)
    (h2 : (fix_edf_file parse reader2
        (fix_edf_file parse reader1 fs file_path none cv1).fs
        file_path none cv2).result = Except.ok p2) :
    fsExists fs p1 = false ∧ p1 ≠ p2 ∧
    ∃ n, 2 ≤ n ∧ p2 = candPath file_path "fixed" n := by
  rcases fix_ok_cases _ _ _ _ _ _ _ h1 with ⟨hp1, content, hct, hfs1⟩
  rcases fix_ok_cases _ _ _ _ _ _ _ h2 with ⟨hp2, content2, hct2, hfs2⟩
  have hp1g : p1 = get_copy_path_with_suffix fs file_path "fixed" := hp1
  have hp2g : p2 = get_copy_path_with_suffix
      (fix_edf_file parse reader1 fs file_path none cv1).fs file_path "fixed" := hp2
  have hfree1 : fsExists fs p1 = false := by
    rw [hp1g]
    exact get_copy_free fs file_path "fixed"
  have hp1in : fsExists (fix_edf_file parse reader1 fs file_path none cv1).fs p1 = true := by
    rw [hfs1]
    exact fsExists_set_self _ _ _
  have hfree2 : fsExists (fix_edf_file parse reader1 fs file_path none cv1).fs p2 = false := by
    rw [hp2g]
    exact get_copy_free _ file_path "fixed"
  have hneq : p1 ≠ p2 := by
    intro he
    rw [he, hfree2] at hp1in
    cases hp1in
  have hc0 : fsExists (fix_edf_file parse reader1 fs file_path none cv1).fs
      (candPath file_path "fixed" 0) = true := by
    by_cases h0 : fsExists fs (candPath file_path "fixed" 0) = true
    · rw [hfs1]
      exact fsExists_set_mono _ _ _ _ (fsExists_set_mono _ _ _ _ h0)
    · have h0f : fsExists fs (candPath file_path "fixed" 0) = false := by
        cases hb : fsExists fs (candPath file_path "fixed" 0)
        · rfl
        · exact absurd hb h0
      have hpc : p1 = candPath file_path "fixed" 0 := by
        rw [hp1g]
        exact get_copy_eq_c0 fs file_path "fixed" h0f
      rw [← hpc]
      exact hp1in
  rcases get_copy_ge2_of_c0_exists _ file_path "fixed" hc0 with ⟨k, hk2, hkeq⟩
  exact ⟨hfree1, hneq, k, hk2, by rw [hp2g, hkeq]⟩

/-- Witness for C6 at a concrete input: fixing `src.edf` twice yields
`src_fixed.edf` then `src_fixed_2.edf`. -/
theorem claim_C6_witness :
    fsExists [("src.edf", "A")] "src_fixed.edf" = false ∧
    "src_fixed.edf" ≠ "src_fixed_2.edf" ∧
    ∃ n, 2 ≤ n ∧ "src_fixed_2.edf" = candPath "src.edf" "fixed" n :=
  claim_C6_no_overwrite dateparserParse (fun _ => true) (fun _ => true)
    [("src.edf", "A")] "src.edf" false false "src_fixed.edf" "src_fixed_2.edf"
    rfl rfl

/-! ## Claim C3: `FieldFormatError` never escapes the header fixer -/

/-- C3: whenever a strict fixer raises `FieldFormatError`, the corresponding
heuristic fixer is invoked instead, and the heuristic fixers are total
functions into strings (their embedding returns `String`, not a
`FieldFormatError` result, mirroring that their Python bodies raise no
`FieldFormatError`), so `fix_edfplus_header` never propagates one.  In
particular, on the LPI string `X Q 01-Jan-2000 X` the strict path raises
`FieldFormatError` for the invalid sex token `Q` and the heuristic path
returns a reconstructed string. -/
theorem claim_C3_fieldformaterror_fallback (parse : String → Option PyDate)
    (lpi lri : String) (e1 e2 : String)
    (hl : basic_fix_lpi_format parse lpi = Except.error e1)
    (hr : basic_fix_lri_format parse lri = Except.error e2) :
    fix_lpi parse lpi = heuristic_fix_lpi_format parse lpi ∧
    fix_lri parse lri = heuristic_fix_lri_format parse lri ∧
    basic_fix_lpi_format dateparserParse "X Q 01-Jan-2000 X" =
      Except.error "Invalid sex field" ∧
    heuristic_fix_lpi_format dateparserParse "X Q 01-Jan-2000 X" =
      "X X 01-JAN-2000 X X Q X" := by
  refine ⟨?_, ?_, rfl, rfl⟩
  · rw [fix_lpi, hl]
  · rw [fix_lri, hr]

/-- Witness for C3 at concrete inputs: the LPI example of the claim and an
LRI missing its `Startdate` keyword. -/
theorem claim_C3_witness :
    fix_lpi dateparserParse "X Q 01-Jan-2000 X" =
      heuristic_fix_lpi_format dateparserParse "X Q 01-Jan-2000 X" ∧
    fix_lri dateparserParse "" = heuristic_fix_lri_format dateparserParse "" ∧
    basic_fix_lpi_format dateparserParse "X Q 01-Jan-2000 X" =
      Except.error "Invalid sex field" ∧
    heuristic_fix_lpi_format dateparserParse "X Q 01-Jan-2000 X" =
      "X X 01-JAN-2000 X X Q X" :=
  claim_C3_fieldformaterror_fallback dateparserParse "X Q 01-Jan-2000 X" ""
    "Invalid sex field" "Missing Startdate" rfl rfl

/-! ## Claim C4: the repair patches only the header bytes it owns -/

/-- Generic fact: dropping exactly the prefix length of an append. -/
theorem drop_append_len (l1 l2 : List Char) (n : Nat) (h : l1.length = n) :
    (l1 ++ l2).drop n = l2 := by
  subst h
  exact List.drop_left l1 l2

/-- Generic fact: taking exactly the prefix length of an append. -/
theorem take_append_len (l1 l2 : List Char) (n : Nat) (h : l1.length = n) :
    (l1 ++ l2).take n = l1 := by
  subst h
  exact List.take_left l1 l2

/-- Padding a string of length at most `w` yields exactly `w` characters. -/
theorem ljust_len_of_le (s : String) (w : Nat) (h : s.data.length ≤ w) :
    (ljust s w).data.length = w := by
  simp only [ljust, String.data_append]
  rw [show ((List.replicate (w - s.length) ' ').asString).data =
    List.replicate (w - s.length) ' ' from rfl]
  simp only [List.length_append, List.length_replicate]
  have hsl : s.length = s.data.length := rfl
  omega

/-- The corrected header always has exactly 256 characters when the decoded
header does. -/
theorem fix_edfplus_header_len (parse : String → Option PyDate) (h : String)
    (hl : h.data.length = 256) :
    (fix_edfplus_header parse h).data.length = 256 := by
  have h1 : (ljust "0" 8).data.length = 8 := rfl
  have h2 : (ljust (strTake (fix_lpi parse (pyStrip (strSlice h 8 88))) 80) 80).data.length = 80 := by
    apply ljust_len_of_le
    rw [show (strTake (fix_lpi parse (pyStrip (strSlice h 8 88))) 80).data =
      (fix_lpi parse (pyStrip (strSlice h 8 88))).data.take 80 from rfl]
    simp
  have h3 : (ljust (strTake (fix_lri parse (pyStrip (strSlice h 88 168))) 80) 80).data.length = 80 := by
    apply ljust_len_of_le
    rw [show (strTake (fix_lri parse (pyStrip (strSlice h 88 168))) 80).data =
      (fix_lri parse (pyStrip (strSlice h 88 168))).data.take 80 from rfl]
    simp
  have h4 : (strSlice h 168 192).data.length = 24 := by
    rw [show (strSlice h 168 192).data = (h.data.drop 168).take 24 from rfl]
    simp [hl]
  have h5 : (ljust "EDF+C" 44).data.length = 44 := rfl
  have h6 : (strDropStr h 236).data.length = 20 := by
    rw [show (strDropStr h 236).data = h.data.drop 236 from rfl]
    simp [hl]
  simp only [fix_edfplus_header, String.data_append, List.length_append]
  omega

/-- Offset arithmetic over a list made of the six header segments followed by
the untouched remainder. -/
theorem six_seg_facts (s1 s2 s3 s4 s5 s6 rest whole : List Char)
    (he : whole = s1 ++ s2 ++ s3 ++ s4 ++ s5 ++ s6 ++ rest)
    (h1 : s1.length = 8) (h2 : s2.length = 80) (h3 : s3.length = 80)
    (h4 : s4.length = 24) (h5 : s5.length = 44) (h6 : s6.length = 20) :
    whole.drop 256 = rest ∧
    (whole.drop 168).take 24 = s4 ∧
    (whole.drop 192).take 44 = s5 ∧
    (whole.drop 236).take 20 = s6 ∧
    whole.length = 256 + rest.length := by
  subst he
  refine ⟨?_, ?_, ?_, ?_, ?_⟩
  · have hgroup : s1 ++ s2 ++ s3 ++ s4 ++ s5 ++ s6 ++ rest =
        (s1 ++ s2 ++ s3 ++ s4 ++ s5 ++ s6) ++ rest := by
      simp [List.append_assoc]
    rw [hgroup, drop_append_len _ _ 256
      (by simp only [List.length_append, h1, h2, h3, h4, h5, h6])]
  · have hgroup : s1 ++ s2 ++ s3 ++ s4 ++ s5 ++ s6 ++ rest =
        (s1 ++ s2 ++ s3) ++ (s4 ++ (s5 ++ (s6 ++ rest))) := by
      simp [List.append_assoc]
    rw [hgroup, drop_append_len _ _ 168 (by simp only [List.length_append, h1, h2, h3]),
      take_append_len _ _ 24 h4]
  · have hgroup : s1 ++ s2 ++ s3 ++ s4 ++ s5 ++ s6 ++ rest =
        (s1 ++ s2 ++ s3 ++ s4) ++ (s5 ++ (s6 ++ rest)) := by
      simp [List.append_assoc]
    rw [hgroup, drop_append_len _ _ 192
        (by simp only [List.length_append, h1, h2, h3, h4]),
      take_append_len _ _ 44 h5]
  · have hgroup : s1 ++ s2 ++ s3 ++ s4 ++ s5 ++ s6 ++ rest =
        (s1 ++ s2 ++ s3 ++ s4 ++ s5) ++ (s6 ++ rest) := by
      simp [List.append_assoc]
    rw [hgroup, drop_append_len _ _ 236
        (by simp only [List.length_append, h1, h2, h3, h4, h5]),
      take_append_len _ _ 20 h6]
  · simp only [List.length_append, h1, h2, h3, h4, h5, h6]

/-- Data view of `strTake`. -/
theorem strTake_data (s : String) (n : Nat) : (strTake s n).data = s.data.take n := rfl

/-- Data view of `strDropStr`. -/
theorem strDropStr_data (s : String) (n : Nat) :
    (strDropStr s n).data = s.data.drop n := rfl

/-- Data view of `strSlice`. -/
theorem strSlice_data (s : String) (a b : Nat) :
    (strSlice s a b).data = (s.data.drop a).take (b - a) := rfl

/-- Data view of `ljust`. -/
theorem ljust_data (s : String) (w : Nat) :
    (ljust s w).data = s.data ++ List.replicate (w - s.length) ' ' := rfl

/-- String length is the length of the character data. -/
theorem str_length_data (s : String) : s.length = s.data.length := rfl

/-- The four frame facts about the patched content: its length is the source
length, everything past the 256-byte header is unchanged, the byte ranges the
fixer does not own (`[168, 192)`: recording start date/time and header-size
field; `[236, 256)`: record count, duration, signal count) are copied
unchanged from the source, and the reserved range `[192, 236)` holds the
literal `EDF+C` tag padded with spaces to 44 characters. -/
theorem patched_spec (parse : String → Option PyDate) (content : String)
    (hlen : 256 ≤ content.data.length) :
    (patchedContent parse content).data.length = content.data.length ∧
    (patchedContent parse content).data.drop 256 = content.data.drop 256 ∧
    ((patchedContent parse content).data.drop 168).take 24 =
      (content.data.drop 168).take 24 ∧
    ((patchedContent parse content).data.drop 192).take 44 =
      (ljust "EDF+C" 44).data ∧
    ((patchedContent parse content).data.drop 236).take 20 =
      (content.data.drop 236).take 20 := by
  have hhl : (strTake content 256).data.length = 256 := by
    rw [strTake_data]
    simp only [List.length_take]
    omega
  have hfl := fix_edfplus_header_len parse (strTake content 256) hhl
  have hpd : (patchedContent parse content).data =
      (fix_edfplus_header parse (strTake content 256)).data ++ content.data.drop 256 := by
    simp only [patchedContent, String.data_append, strDropStr_data, str_length_data]
    rw [hfl]
  have hsplit : (fix_edfplus_header parse (strTake content 256)).data =
      (ljust "0" 8).data ++
      (ljust (strTake (fix_lpi parse
        (pyStrip (strSlice (strTake content 256) 8 88))) 80) 80).data ++
      (ljust (strTake (fix_lri parse
        (pyStrip (strSlice (strTake content 256) 88 168))) 80) 80).data ++
      (strSlice (strTake content 256) 168 192).data ++
      (ljust "EDF+C" 44).data ++
      (strDropStr (strTake content 256) 236).data := by
    simp only [fix_edfplus_header, String.data_append]
  have he : (patchedContent parse content).data =
      (ljust "0" 8).data ++
      (ljust (strTake (fix_lpi parse
        (pyStrip (strSlice (strTake content 256) 8 88))) 80) 80).data ++
      (ljust (strTake (fix_lri parse
        (pyStrip (strSlice (strTake content 256) 88 168))) 80) 80).data ++
      (strSlice (strTake content 256) 168 192).data ++
      (ljust "EDF+C" 44).data ++
      (strDropStr (strTake content 256) 236).data ++
      content.data.drop 256 := by
    rw [hpd, hsplit]
  have h2 : (ljust (strTake (fix_lpi parse
      (pyStrip (strSlice (strTake content 256) 8 88))) 80) 80).data.length = 80 := by
    apply ljust_len_of_le
    rw [strTake_data]
    exact List.length_take_le _ _
  have h3 : (ljust (strTake (fix_lri parse
      (pyStrip (strSlice (strTake content 256) 88 168))) 80) 80).data.length = 80 := by
    apply ljust_len_of_le
    rw [strTake_data]
    exact List.length_take_le _ _
  have h4 : (strSlice (strTake content 256) 168 192).data.length = 24 := by
    rw [strSlice_data]
    simp only [List.length_take, List.length_drop, hhl]
    omega
  have h6 : (strDropStr (strTake content 256) 236).data.length = 20 := by
    rw [strDropStr_data]
    simp only [List.length_drop, hhl]
  have hmain := six_seg_facts _ _ _ _ _ _ _ _ he rfl h2 h3 h4 rfl h6
  rcases hmain with ⟨hm1, hm2, hm3, hm4, hm5⟩
  have hs4 : (strSlice (strTake content 256) 168 192).data =
      (content.data.drop 168).take 24 := by
    rw [strSlice_data, strTake_data]
    rw [show (192 - 168 : Nat) = 24 from rfl]
    rw [List.take_drop 168 24 (content.data.take 256),
      List.take_drop 168 24 content.data, List.take_take]
    norm_num
  have hs6 : (strDropStr (strTake content 256) 236).data =
      (content.data.drop 236).take 20 := by
    rw [strDropStr_data, strTake_data, List.take_drop 236 20 content.data]
  refine ⟨?_, hm1, ?_, hm3, ?_⟩
  · rw [hm5]
    simp only [List.length_drop]
    omega
  · rw [hm2, hs4]
  · rw [hm4, hs6]

/-- Reading back a freshly written file yields the written content. -/
theorem fsGet_set_self (fs : FS) (p v : String) : fsGet (fsSet fs p v) p = some v := by
  simp [fsGet, fsSet, List.find?]

/-- C4: a successful repair writes at the output path exactly the source
content with its first 256 bytes replaced by the rebuilt header; the output
has the source's length, all bytes past the header are identical to the
source, the header ranges the fixer does not own (`[168, 192)` and
`[236, 256)`) are copied unchanged, and the file-type marker range
`[192, 236)` is the literal `EDF+C` padded with spaces. -/
theorem claim_C4_header_patch_frame (parse : String → Option PyDate)
    (reader_ok : String → Bool) (fs : FS) (file_path : String)
    (output_path : Option String) (cv : Bool) (p content : String)
    (hsrc : fsGet fs file_path = some content)
    (hlen : 256 ≤ content.data.length)
    (hok : (fix_edf_file parse reader_ok fs file_path output_path cv).result =
      Except.ok p) :
    fsGet (fix_edf_file parse reader_ok fs file_path output_path cv).fs p =
      some (patchedContent parse content) ∧
    (patchedContent parse content).data.length = content.data.length ∧
    (patchedContent parse content).data.drop 256 = content.data.drop 256 ∧
    ((patchedContent parse content).data.drop 168).take 24 =
      (content.data.drop 168).take 24 ∧
    ((patchedContent parse content).data.drop 192).take 44 =
      (ljust "EDF+C" 44).data ∧
    ((patchedContent parse content).data.drop 236).take 20 =
      (content.data.drop 236).take 20 := by
  rcases fix_ok_cases _ _ _ _ _ _ _ hok with ⟨hp, content', hct, hfs⟩
  have hcc : content' = content := by
    rw [hsrc] at hct
    injection hct with hcc
    exact hcc.symm
  subst hcc
  rcases patched_spec parse content' hlen with ⟨q1, q2, q3, q4, q5⟩
  exact ⟨by rw [hfs]; exact fsGet_set_self _ _ _, q1, q2, q3, q4, q5⟩

set_option maxRecDepth 8192 in
/-- Witness for C4 at a concrete input: a 256-byte file of `A` characters is
patched in place with verification disabled. -/
theorem claim_C4_witness :
    fsGet (fix_edf_file dateparserParse (fun _ => true)
        [("src.edf", (List.replicate 256 'A').asString)] "src.edf"
        (some "out.edf") false).fs "out.edf" =
      some (patchedContent dateparserParse (List.replicate 256 'A').asString) ∧
    (patchedContent dateparserParse
        (List.replicate 256 'A').asString).data.length =
      ((List.replicate 256 'A').asString).data.length ∧
    (patchedContent dateparserParse (List.replicate 256 'A').asString).data.drop 256 =
      ((List.replicate 256 'A').asString).data.drop 256 ∧
    ((patchedContent dateparserParse
        (List.replicate 256 'A').asString).data.drop 168).take 24 =
      (((List.replicate 256 'A').asString).data.drop 168).take 24 ∧
    ((patchedContent dateparserParse
        (List.replicate 256 'A').asString).data.drop 192).take 44 =
      (ljust "EDF+C" 44).data ∧
    ((patchedContent dateparserParse
        (List.replicate 256 'A').asString).data.drop 236).take 20 =
      (((List.replicate 256 'A').asString).data.drop 236).take 20 :=
  claim_C4_header_patch_frame dateparserParse (fun _ => true)
    [("src.edf", (List.replicate 256 'A').asString)] "src.edf" (some "out.edf")
    false "out.edf" (List.replicate 256 'A').asString rfl (by decide) rfl

/-! ## Claim C8: idempotence of the strict LPI fixer on compliant fields -/

/-- Splitting a separator-free list yields the list itself. -/
theorem splitOnChar_no_sep (c : Char) (l : List Char) (h : ∀ x ∈ l, ¬ x = c) :
    splitOnChar c l = [l] := by
  induction l with
  | nil => rfl
  | cons x xs ih =>
    have hx : ¬ x = c := h x (List.mem_cons_self x xs)
    have ih' := ih (fun y hy => h y (List.mem_cons_of_mem x hy))
    simp only [splitOnChar, if_neg hx, ih']

/-- Splitting past a separator-free prefix peels off that prefix. -/
theorem splitOnChar_append (c : Char) (l rest : List Char)
    (h : ∀ x ∈ l, ¬ x = c) :
    splitOnChar c (l ++ c :: rest) = l :: splitOnChar c rest := by
  induction l with
  | nil => simp [splitOnChar]
  | cons x xs ih =>
    have hx : ¬ x = c := h x (List.mem_cons_self x xs)
    have ih' := ih (fun y hy => h y (List.mem_cons_of_mem x hy))
    simp only [List.cons_append, splitOnChar, if_neg hx]
    rw [show xs.append (c :: rest) = xs ++ c :: rest from rfl, ih']

/-- Character data of a two-or-more-token join. -/
theorem pyJoin_data_cons (t u : String) (us : List String) :
    (pyJoin " " (t :: u :: us)).data = t.data ++ ' ' :: (pyJoin " " (u :: us)).data := by
  show (t ++ " " ++ pyJoin " " (u :: us)).data = _
  simp only [String.data_append]
  simp

/-- Splitting a single-space join of space-free tokens recovers the token
data. -/
theorem splitOnChar_join (tokens : List String) (h0 : tokens ≠ [])
    (hns : ∀ t ∈ tokens, ∀ c ∈ t.data, ¬ c = ' ') :
    splitOnChar ' ' (pyJoin " " tokens).data = tokens.map String.data := by
  induction tokens with
  | nil => exact absurd rfl h0
  | cons t ts ih =>
    cases ts with
    | nil =>
      show splitOnChar ' ' t.data = [t.data]
      exact splitOnChar_no_sep ' ' t.data (hns t (List.mem_cons_self t []))
    | cons u us =>
      rw [pyJoin_data_cons,
        splitOnChar_append ' ' t.data _ (hns t (List.mem_cons_self t (u :: us))),
        ih (by simp) (fun t' ht' c hc => hns t' (List.mem_cons_of_mem t ht') c hc)]
      rfl

/-- Interior collapsing is the identity on lists of nonempty pieces. -/
theorem collapseMid_id (l : List (List Char)) (h : ∀ p ∈ l, p ≠ []) :
    collapseMid l = l := by
  induction l with
  | nil => rfl
  | cons p rest ih =>
    cases rest with
    | nil => rfl
    | cons q rs =>
      have hp : p ≠ [] := h p (List.mem_cons_self p _)
      simp only [collapseMid, if_neg hp]
      rw [ih (fun x hx => h x (List.mem_cons_of_mem p hx))]

/-- Collapsing is the identity on lists of nonempty pieces. -/
theorem collapseParts_id (l : List (List Char)) (h : ∀ p ∈ l, p ≠ []) :
    collapseParts l = l := by
  cases l with
  | nil => rfl
  | cons p rest =>
    cases rest with
    | nil => rfl
    | cons q rs =>
      show p :: collapseMid (q :: rs) = p :: q :: rs
      rw [collapseMid_id _ (fun x hx => h x (List.mem_cons_of_mem p hx))]

/-- Splitting a single-space join of nonempty, space-free tokens recovers the
tokens: the round trip underlying the strict fixer's idempotence. -/
theorem split_join (tokens : List String) (h0 : tokens ≠ [])
    (hne : ∀ t ∈ tokens, t.data ≠ [])
    (hns : ∀ t ∈ tokens, ∀ c ∈ t.data, ¬ c = ' ') :
    re_split_spaces (pyJoin " " tokens) = tokens := by
  rw [re_split_spaces, splitOnChar_join tokens h0 hns,
    collapseParts_id _ (by
      intro p hp
      rcases List.mem_map.mp hp with ⟨t, ht, rfl⟩
      exact hne t ht)]
  rw [List.map_map]
  have hid : (List.asString ∘ String.data) = id := funext fun t => rfl
  rw [hid, List.map_id]

/-- A digit character's value is at most 9 and it is neither a dash, a space,
nor non-ASCII. -/
theorem isDigit_facts (c : Char) (h : c.isDigit = true) :
    digitVal c ≤ 9 ∧ ¬ c = '-' ∧ ¬ c = ' ' ∧ c.toNat < 128 := by
  simp [Char.isDigit] at h
  rcases h with ⟨h1, h2⟩
  have h1n : 48 ≤ c.val.toNat := by
    have hx : (48 : UInt32).toNat ≤ c.val.toNat := h1
    simpa using hx
  have h2n : c.val.toNat ≤ 57 := by
    have hx : c.val.toNat ≤ (57 : UInt32).toNat := h2
    simpa using hx
  have hcn : c.toNat = c.val.toNat := rfl
  refine ⟨?_, ?_, ?_, ?_⟩
  · simp only [digitVal]
    omega
  · rintro rfl
    exact absurd h1 (by decide)
  · rintro rfl
    exact absurd h1 (by decide)
  · omega

/-- Decimal decoding of digit strings is bounded by the digit count. -/
theorem digitsVal_foldl_lt (l : List Char) : ∀ a : Nat,
    (∀ c ∈ l, c.isDigit = true) →
    l.foldl (fun a c => 10 * a + digitVal c) a < (a + 1) * 10 ^ l.length := by
  induction l with
  | nil =>
    intro a _
    simp
  | cons c cs ih =>
    intro a h
    have hv := (isDigit_facts c (h c (List.mem_cons_self c cs))).1
    have hrec := ih (10 * a + digitVal c) (fun x hx => h x (List.mem_cons_of_mem c hx))
    have hmul : (10 * a + digitVal c + 1) * 10 ^ cs.length ≤
        (a + 1) * 10 ^ (cs.length + 1) := by
      have hco : 10 * a + digitVal c + 1 ≤ 10 * (a + 1) := by omega
      calc (10 * a + digitVal c + 1) * 10 ^ cs.length
          ≤ 10 * (a + 1) * 10 ^ cs.length := Nat.mul_le_mul_right _ hco
        _ = (a + 1) * 10 ^ (cs.length + 1) := by
            rw [Nat.pow_succ]
            ring
    simp only [List.length_cons, List.foldl_cons]
    exact lt_of_lt_of_le hrec hmul

/-- Decimal decoding of a digit string of length `k` is below `10 ^ k`. -/
theorem digitsVal_lt_pow (l : List Char) (h : ∀ c ∈ l, c.isDigit = true) :
    digitsVal l < 10 ^ l.length := by
  have := digitsVal_foldl_lt l 0 h
  simpa [digitsVal] using this

/-- `findIdx?` only returns indices below the shifted list length. -/
theorem findIdx?_lt (p : α → Bool) :
    ∀ (l : List α) (s i : Nat), List.findIdx? p l s = some i → i < s + l.length := by
  intro l
  induction l with
  | nil =>
    intro s i h
    simp [List.findIdx?] at h
  | cons a l ih =>
    intro s i h
    rw [List.findIdx?] at h
    by_cases hp : p a = true
    · rw [if_pos hp] at h
      injection h with h
      simp [← h]
    · rw [if_neg hp] at h
      have := ih (s + 1) i h
      simp only [List.length_cons]
      omega

/-- Inversion of a successful three-component parse: the day, month and year
components are bounded. -/
theorem parseDMY_facts (d2 m y : List Char) (d : PyDate)
    (h : parseDMY d2 m y = some d) :
    1 ≤ d.day ∧ d.day ≤ 31 ∧ 1 ≤ d.month ∧ d.month ≤ 12 ∧ d.year < 10000 := by
  unfold parseDMY at h
  by_cases hc : d2.length = 2 ∧ d2.all Char.isDigit ∧ y.length = 4 ∧
      y.all Char.isDigit
  · rw [if_pos hc] at h
    split at h
    next i hmi =>
      by_cases hday : 1 ≤ digitsVal d2 ∧ digitsVal d2 ≤ 31
      · rw [if_pos hday] at h
        injection h with h
        have hilt : i < 12 := by
          have := findIdx?_lt _ MONTHS 0 i hmi
          simpa [MONTHS] using this
        have hy : digitsVal y < 10000 := by
          have hyd : ∀ c ∈ y, c.isDigit = true := by
            have := hc.2.2.2
            simpa [List.all_eq_true] using this
          have := digitsVal_lt_pow y hyd
          rw [hc.2.2.1] at this
          simpa using this
        subst h
        refine ⟨hday.1, hday.2, ?_, ?_, hy⟩
        · show 1 ≤ i + 1
          omega
        · show i + 1 ≤ 12
          omega
      · rw [if_neg hday] at h
        cases h
    next hmi => cases h
  · rw [if_neg hc] at h
    cases h

/-- Inversion of a successful modelled date parse: the day, month and year
components are bounded. -/
theorem dateparserParse_facts (s : String) (d : PyDate)
    (h : dateparserParse s = some d) :
    1 ≤ d.day ∧ d.day ≤ 31 ∧ 1 ≤ d.month ∧ d.month ≤ 12 ∧ d.year < 10000 := by
  unfold dateparserParse at h
  split at h
  case _ d2 m y heq => exact parseDMY_facts d2 m y d h
  case _ => cases h

/-- A string that parses as a date is not (case-insensitively) the
placeholder `x`. -/
theorem dateparserParse_ne_x (s : String) (d : PyDate)
    (h : dateparserParse s = some d) : pyLower s ≠ "x" := by
  intro hpl
  have hmap : s.data.map Char.toLower = ['x'] := by
    have hd := congrArg String.data hpl
    rw [show (pyLower s).data = s.data.map Char.toLower from rfl,
      show ("x" : String).data = ['x'] from rfl] at hd
    exact hd
  rcases hsd : s.data with _ | ⟨c, rest⟩
  · rw [hsd] at hmap
    simp at hmap
  · rcases hrest : rest with _ | ⟨c2, rest2⟩
    · rw [hsd, hrest] at hmap
      have hcx : Char.toLower c = 'x' := by simpa using hmap
      have hcd : ¬ c = '-' := by
        rintro rfl
        revert hcx
        decide
      unfold dateparserParse at h
      rw [hsd, hrest] at h
      rw [splitOnChar_no_sep '-' [c] (by
        intro x hx
        simp only [List.mem_singleton] at hx
        subst hx
        exact hcd)] at h
      simp at h
    · rw [hsd, hrest] at hmap
      simp at hmap

/-- Character data of the rendered long date, in split-ready shape. -/
theorem format_data (d : PyDate) :
    (format_edf_long_date d).data =
      (zeroPad 2 d.day).data ++
        '-' :: ((MONTHS.getD (d.month - 1) "").data ++
          '-' :: (zeroPad 4 d.year).data) := by
  show ((zeroPad 2 d.day ++ "-" ++ MONTHS.getD (d.month - 1) "" ++ "-" ++
    zeroPad 4 d.year)).data = _
  simp only [String.data_append]
  simp [List.append_assoc]

/-- Decimal digit characters are digits. -/
theorem digitChar_isDigit (k : Nat) : (digitChar k).isDigit = true := by
  by_cases hk : k < 10
  · interval_cases k <;> decide
  · have hlen : digitChars.length ≤ k := by
      simp only [digitChars, List.length_cons, List.length_nil]
      omega
    rw [digitChar, List.getD_eq_default _ _ hlen]
    decide

/-- Every character of a decimal rendering is a digit. -/
theorem toDecimal_digits (n : Nat) : ∀ c ∈ toDecimal n, c.isDigit = true := by
  induction n using Nat.strong_induction_on with
  | _ n ih =>
    rw [toDecimal_eq]
    by_cases hn : n < 10
    · rw [if_pos hn]
      intro c hc
      simp only [List.mem_singleton] at hc
      subst hc
      exact digitChar_isDigit n
    · rw [if_neg hn]
      intro c hc
      rcases List.mem_append.mp hc with h | h
      · exact ih (n / 10) (Nat.div_lt_self (by omega) (by omega)) c h
      · simp only [List.mem_singleton] at h
        subst h
        exact digitChar_isDigit _

/-- Every character of a zero-padded decimal rendering is a digit. -/
theorem zeroPad_digits (w n : Nat) : ∀ c ∈ (zeroPad w n).data, c.isDigit = true := by
  intro c hc
  rw [show (zeroPad w n).data =
    List.replicate (w - (toDecimal n).length) '0' ++ toDecimal n from rfl] at hc
  rcases List.mem_append.mp hc with h | h
  · rw [List.eq_of_mem_replicate h]
    decide
  · exact toDecimal_digits n c h

/-- Decimal renderings of numbers below `10 ^ w` have at most `w` digits. -/
theorem toDecimal_length_le : ∀ w n : Nat, 1 ≤ w → n < 10 ^ w →
    (toDecimal n).length ≤ w := by
  intro w
  induction w with
  | zero =>
    intro n h
    omega
  | succ w' ih =>
    intro n _ hn
    rw [toDecimal_eq]
    by_cases hn10 : n < 10
    · rw [if_pos hn10]
      simp
    · rw [if_neg hn10]
      have hw' : 1 ≤ w' := by
        by_contra hw
        push_neg at hw
        have hw0 : w' = 0 := by omega
        rw [hw0] at hn
        simp at hn
        omega
      have hdiv : n / 10 < 10 ^ w' := by
        rw [Nat.div_lt_iff_lt_mul (by omega)]
        calc n < 10 ^ (w' + 1) := hn
        _ = 10 ^ w' * 10 := by rw [Nat.pow_succ]
      have := ih (n / 10) hw' hdiv
      simp only [List.length_append, List.length_cons, List.length_nil]
      omega

/-- Zero-padding to width `w` yields exactly `w` characters for numbers below
`10 ^ w`. -/
theorem zeroPad_len (w n : Nat) (hw : 1 ≤ w) (h : n < 10 ^ w) :
    (zeroPad w n).data.length = w := by
  rw [show (zeroPad w n).data =
    List.replicate (w - (toDecimal n).length) '0' ++ toDecimal n from rfl]
  have := toDecimal_length_le w n hw h
  simp only [List.length_append, List.length_replicate]
  omega

/-- Folding the decimal decoder over leading zeros keeps the accumulator. -/
theorem foldl_zeros (k : Nat) :
    List.foldl (fun a c => 10 * a + digitVal c) 0 (List.replicate k '0') = 0 := by
  induction k with
  | zero => rfl
  | succ k ih =>
    rw [List.replicate_succ, List.foldl_cons,
      show (10 * 0 + digitVal '0' : Nat) = 0 from rfl]
    exact ih

/-- Zero-padded decimal renderings decode to the rendered number. -/
theorem digitsVal_zeroPad (w n : Nat) : digitsVal (zeroPad w n).data = n := by
  rw [show (zeroPad w n).data =
    List.replicate (w - (toDecimal n).length) '0' ++ toDecimal n from rfl]
  rw [digitsVal, List.foldl_append, foldl_zeros]
  exact digitsVal_toDecimal n

/-- Facts about each month abbreviation: nonempty, free of dashes and spaces,
ASCII, and found by `monthIndex` at its own index. -/
theorem months_getD_facts (i : Nat) (hi : i < 12) :
    (MONTHS.getD i "").data ≠ [] ∧
    (∀ c ∈ (MONTHS.getD i "").data, ¬ c = '-' ∧ ¬ c = ' ' ∧ c.toNat < 128) ∧
    monthIndex (MONTHS.getD i "").data = some i := by
  interval_cases i <;> exact (by decide)

/-- Rendering a bounded date and re-parsing it with the strict parser yields
the same date: the key round trip behind the strict fixer's idempotence. -/
theorem format_roundtrip (d : PyDate) (h1 : 1 ≤ d.day) (h2 : d.day ≤ 31)
    (h3 : 1 ≤ d.month) (h4 : d.month ≤ 12) (h5 : d.year < 10000) :
    dateparserParse (format_edf_long_date d) = some d := by
  have hmi : d.month - 1 < 12 := by omega
  rcases months_getD_facts (d.month - 1) hmi with ⟨hm_ne, hm_chars, hm_idx⟩
  have hday_lt : d.day < 10 ^ 2 := by
    have hp : (10 : Nat) ^ 2 = 100 := by norm_num
    omega
  have hyr_lt : d.year < 10 ^ 4 := by
    have hp : (10 : Nat) ^ 4 = 10000 := by norm_num
    omega
  have hp2_len := zeroPad_len 2 d.day (by omega) hday_lt
  have hp4_len := zeroPad_len 4 d.year (by omega) hyr_lt
  have hp2_dig := zeroPad_digits 2 d.day
  have hp4_dig := zeroPad_digits 4 d.year
  unfold dateparserParse
  rw [format_data]
  rw [splitOnChar_append '-' _ _ (fun c hc => (isDigit_facts c (hp2_dig c hc)).2.1)]
  rw [splitOnChar_append '-' _ _ (fun c hc => (hm_chars c hc).1)]
  rw [splitOnChar_no_sep '-' _ (fun c hc => (isDigit_facts c (hp4_dig c hc)).2.1)]
  show parseDMY (zeroPad 2 d.day).data (MONTHS.getD (d.month - 1) "").data
    (zeroPad 4 d.year).data = some d
  unfold parseDMY
  rw [if_pos ⟨hp2_len, List.all_eq_true.mpr hp2_dig, hp4_len,
    List.all_eq_true.mpr hp4_dig⟩]
  rw [hm_idx]
  rw [digitsVal_zeroPad 2 d.day, digitsVal_zeroPad 4 d.year]
  show (if 1 ≤ d.day ∧ d.day ≤ 31 then
    some (⟨d.day, d.month - 1 + 1, d.year⟩ : PyDate) else none) = some d
  rw [if_pos ⟨h1, h2⟩]
  rw [show d.month - 1 + 1 = d.month from by omega]

/-- The strict LPI fixer on a joined compliant token list whose birthdate
slot is the placeholder: the field is returned unchanged. -/
theorem basic_fix_lpi_on_tokens_x (parse : String → Option PyDate)
    (tokens : List String) (h0 : tokens ≠ [])
    (hne : ∀ t ∈ tokens, t.data ≠ [])
    (hns : ∀ t ∈ tokens, ∀ c ∈ t.data, ¬ c = ' ')
    (h4 : 4 ≤ tokens.length)
    (hsex : pyLower (tokens.getD 1 "") = "m" ∨ pyLower (tokens.getD 1 "") = "f" ∨
      pyLower (tokens.getD 1 "") = "x")
    (hx : pyLower (tokens.getD 2 "") = "x") :
    basic_fix_lpi_format parse (pyJoin " " tokens) =
      Except.ok (pyJoin " " tokens) := by
  simp only [basic_fix_lpi_format]
  rw [split_join tokens h0 hne hns]
  rw [if_neg (by omega : ¬ tokens.length < 4)]
  rw [if_neg (not_not_intro hsex)]
  rw [if_neg (not_not_intro hx)]
  rfl

/-- The strict LPI fixer on a joined compliant token list whose birthdate
slot parses: the birthdate token is re-rendered, everything else kept. -/
theorem basic_fix_lpi_on_tokens_date (parse : String → Option PyDate)
    (tokens : List String) (d : PyDate) (h0 : tokens ≠ [])
    (hne : ∀ t ∈ tokens, t.data ≠ [])
    (hns : ∀ t ∈ tokens, ∀ c ∈ t.data, ¬ c = ' ')
    (h4 : 4 ≤ tokens.length)
    (hsex : pyLower (tokens.getD 1 "") = "m" ∨ pyLower (tokens.getD 1 "") = "f" ∨
      pyLower (tokens.getD 1 "") = "x")
    (hx : ¬ pyLower (tokens.getD 2 "") = "x")
    (hp : parse (tokens.getD 2 "") = some d) :
    basic_fix_lpi_format parse (pyJoin " " tokens) =
      Except.ok (pyJoin " " (tokens.set 2 (format_edf_long_date d))) := by
  simp only [basic_fix_lpi_format]
  rw [split_join tokens h0 hne hns]
  rw [if_neg (by omega : ¬ tokens.length < 4)]
  rw [if_neg (not_not_intro hsex)]
  rw [if_pos hx, hp]
  rfl

/-- C8: `basic_fix_lpi_format` is idempotent on already-compliant LPI
fields: at least four single-space-separated nonempty ASCII tokens, sex token
in `{M, F, X}`, birthdate token either `X` or a date in strict `DD-MMM-YYYY`
form (`dateparserParse` succeeds on it), for any date parser that agrees with
the strict form.  Applying the fixer once succeeds, and applying it to its
own output returns that output unchanged. -/
theorem claim_C8_basic_fix_lpi_idempotent (parse : String → Option PyDate)
    (tokens : List String)
    (h4 : 4 ≤ tokens.length)
    (hne : ∀ t ∈ tokens, t.data ≠ [])
    (hns : ∀ t ∈ tokens, ∀ c ∈ t.data, ¬ c = ' ')
    (_hascii : ∀ t ∈ tokens, ∀ c ∈ t.data, c.toNat < 128)
    (hsex : tokens.getD 1 "" = "M" ∨ tokens.getD 1 "" = "F" ∨
      tokens.getD 1 "" = "X")
    (hbd : tokens.getD 2 "" = "X" ∨
      ∃ d, dateparserParse (tokens.getD 2 "") = some d)
    (hparse : ∀ s d, dateparserParse s = some d → parse s = some d) :
    ∃ s, basic_fix_lpi_format parse (pyJoin " " tokens) = Except.ok s ∧
      basic_fix_lpi_format parse s = Except.ok s := by
  have h0 : tokens ≠ [] := by
    intro h
    rw [h] at h4
    simp at h4
  have hsexlow : pyLower (tokens.getD 1 "") = "m" ∨
      pyLower (tokens.getD 1 "") = "f" ∨ pyLower (tokens.getD 1 "") = "x" := by
    rcases hsex with h | h | h <;> rw [h] <;> decide
  rcases hbd with hX | ⟨d, hd⟩
  · have hx : pyLower (tokens.getD 2 "") = "x" := by
      rw [hX]
      decide
    exact ⟨pyJoin " " tokens,
      basic_fix_lpi_on_tokens_x parse tokens h0 hne hns h4 hsexlow hx,
      basic_fix_lpi_on_tokens_x parse tokens h0 hne hns h4 hsexlow hx⟩
  · have hx := dateparserParse_ne_x _ _ hd
    have hp := hparse _ _ hd
    rcases dateparserParse_facts _ _ hd with ⟨f1, f2, f3, f4, f5⟩
    have hrt := format_roundtrip d f1 f2 f3 f4 f5
    have hfmt_ne : (format_edf_long_date d).data ≠ [] := by
      rw [format_data]
      simp
    have hfmt_ns : ∀ c ∈ (format_edf_long_date d).data, ¬ c = ' ' := by
      intro c hc
      rw [format_data] at hc
      simp only [List.mem_append, List.mem_cons] at hc
      rcases hc with h | h | h
      · exact (isDigit_facts c (zeroPad_digits 2 d.day c h)).2.2.1
      · rw [h]
        decide
      · rcases h with h | h | h
        · exact ((months_getD_facts (d.month - 1) (by omega)).2.1 c h).2.1
        · rw [h]
          decide
        · exact (isDigit_facts c (zeroPad_digits 4 d.year c h)).2.2.1
    have h0' : tokens.set 2 (format_edf_long_date d) ≠ [] := by
      intro h
      have hl := congrArg List.length h
      rw [List.length_set] at hl
      simp at hl
      exact h0 hl
    have hne' : ∀ t ∈ tokens.set 2 (format_edf_long_date d), t.data ≠ [] := by
      intro t ht
      rcases List.mem_or_eq_of_mem_set ht with h | h
      · exact hne t h
      · rw [h]
        exact hfmt_ne
    have hns' : ∀ t ∈ tokens.set 2 (format_edf_long_date d),
        ∀ c ∈ t.data, ¬ c = ' ' := by
      intro t ht
      rcases List.mem_or_eq_of_mem_set ht with h | h
      · exact hns t h
      · rw [h]
        exact hfmt_ns
    have h4' : 4 ≤ (tokens.set 2 (format_edf_long_date d)).length := by
      rw [List.length_set]
      exact h4
    have hgd1 : (tokens.set 2 (format_edf_long_date d)).getD 1 "" =
        tokens.getD 1 "" := by
      simp [List.getD_eq_getElem?_getD,
        List.getElem?_set_ne (by omega : (2 : Nat) ≠ 1)]
    have hgd2 : (tokens.set 2 (format_edf_long_date d)).getD 2 "" =
        format_edf_long_date d := by
      simp [List.getD_eq_getElem?_getD,
        List.getElem?_set_self (show (2 : Nat) < tokens.length by omega)]
    have hsex' : pyLower ((tokens.set 2 (format_edf_long_date d)).getD 1 "") = "m" ∨
        pyLower ((tokens.set 2 (format_edf_long_date d)).getD 1 "") = "f" ∨
        pyLower ((tokens.set 2 (format_edf_long_date d)).getD 1 "") = "x" := by
      rw [hgd1]
      exact hsexlow
    have hx' : ¬ pyLower ((tokens.set 2 (format_edf_long_date d)).getD 2 "") = "x" := by
      rw [hgd2]
      exact dateparserParse_ne_x _ _ hrt
    have hp' : parse ((tokens.set 2 (format_edf_long_date d)).getD 2 "") = some d := by
      rw [hgd2]
      exact hparse _ _ hrt
    have hb1 := basic_fix_lpi_on_tokens_date parse tokens d h0 hne hns h4
      hsexlow hx hp
    have hb2 := basic_fix_lpi_on_tokens_date parse
      (tokens.set 2 (format_edf_long_date d)) d h0' hne' hns' h4' hsex' hx' hp'
    refine ⟨pyJoin " " (tokens.set 2 (format_edf_long_date d)), hb1, ?_⟩
    rw [hb2, List.set_set]

/-- Witness for C8 at a concrete compliant field. -/
theorem claim_C8_witness :
    ∃ s, basic_fix_lpi_format dateparserParse
        (pyJoin " " ["P1", "M", "01-Jan-2000", "Doe"]) = Except.ok s ∧
      basic_fix_lpi_format dateparserParse s = Except.ok s :=
  claim_C8_basic_fix_lpi_idempotent dateparserParse ["P1", "M", "01-Jan-2000", "Doe"]
    (by decide) (by decide) (by decide) (by decide) (by decide)
    (Or.inr ⟨⟨1, 1, 2000⟩, by decide⟩) (fun _ _ h => h)
